import Mathlib

/-!
Verification of the LLM KV-cache paging simulator.

This file gives a shallow embedding, in Lean 4, of the simulator's two
KV-cache backends and of the fixed-arena page allocator they are built on,
translated from the C sources (`page_alloc.c`, `page_kv.c`, `mono_kv.c`,
`sim_config.h`, `workload.h`).  Machine `size_t` values are modelled as
`Nat`; a C `abort()` (out of pages, refcount underflow) is modelled by the
`Option` monad returning `none`; pointer-valued page handles are modelled
as indices (`Nat`) into the allocator's descriptor table.  Mutexes are
dropped: all claims are about sequential executions.

Renamings forced by the development (the semantics is unchanged):
`SharedPrefix` is called `SharedPref`, its field `prefix_tokens` is called
`pref_tokens`, its field `initialized` is called `built`, and
`build_shared_prefix` is called `build_shared_pref`.
-/

namespace KVSim

/-- `SimConfig` from `sim_config.h` (plus `max_context_tokens`, which is
set in `main.c` and read by both backends and the workload generator). -/
structure SimConfig where
  num_layers : Nat
  num_heads : Nat
  head_dim : Nat
  max_context_tokens : Nat
  tokens_per_page : Nat
  arena_bytes : Nat
  num_sequences : Nat
  num_groups : Nat
  max_prompt_extra : Nat
  min_gen_tokens : Nat
  max_gen_tokens : Nat
deriving Repr, DecidableEq

/-- `bytes_per_token` from `sim_config.h`: 2 for K and V, 2 bytes per
fp16 element. -/
def bytes_per_token (cfg : SimConfig) : Nat :=
  cfg.num_layers * cfg.num_heads * cfg.head_dim * 2 * 2

/-- `SequenceWork` from `workload.h`. `shared_prompt_id` is an `Int`
because the C field is a signed `int` with `-1` meaning "no sharing". -/
structure SequenceWork where
  prompt_tokens : Nat
  gen_tokens : Nat
  shared_prompt_tokens : Nat
  shared_prompt_id : Int
deriving Repr, DecidableEq

/-- `KVStats` from `kv_backend.h`. -/
structure KVStats where
  logical_tokens : Nat
  logical_bytes : Nat
  physical_bytes : Nat
deriving Repr, DecidableEq

/-! ## Page allocator (`page_alloc.c`)

A page handle is the index of its descriptor in the allocator's `pages`
array; the descriptor stores only the refcount (the `base` pointer is
never read by the simulator).  The C free list is an array used as a
stack (`alloc` pops at `--free_count`, `dec_ref` pushes at
`free_count++`); we model it as a list whose head is the top of the
stack. -/

abbrev PageId := Nat

structure PageAllocator where
  page_bytes : Nat
  num_pages : Nat
  /-- refcount of each page descriptor, indexed by `PageId`. -/
  pages : List Nat
  /-- stack of free page handles, head = top. -/
  free_list : List PageId
deriving Repr, DecidableEq

/-- Refcount of page `p` (`p->ref`). Out-of-range reads default to 0;
all claims use valid handles. -/
def refcount (pa : PageAllocator) (p : PageId) : Nat :=
  pa.pages.getD p 0

/-- `pa->free_count`. -/
def free_count (pa : PageAllocator) : Nat :=
  pa.free_list.length

/-- `page_allocator_create`: `page_bytes = tokens_per_page * bytes_per_token`,
`num_pages = arena_bytes / page_bytes`, all refcounts 0, the free list
holding pages `0..num_pages-1` pushed in order (so page `num_pages-1` is
on top). -/
def page_allocator_create (cfg : SimConfig) : PageAllocator :=
  let pb := cfg.tokens_per_page * bytes_per_token cfg
  let np := cfg.arena_bytes / pb
  { page_bytes := pb
    num_pages := np
    pages := List.replicate np 0
    free_list := (List.range np).reverse }

/-- `page_alloc`: abort (`none`) if the free list is empty, else pop the
top free page and set its refcount to 1. -/
def page_alloc (pa : PageAllocator) : Option (PageAllocator × PageId) :=
  match pa.free_list with
  | [] => none
  | p :: rest =>
      some ({ pa with pages := pa.pages.set p 1, free_list := rest }, p)

/-- `page_inc_ref`: `p->ref++` (no locking; callers already hold a
reference). -/
def page_inc_ref (pa : PageAllocator) (p : PageId) : PageAllocator :=
  { pa with pages := pa.pages.set p (refcount pa p + 1) }

/-- `page_dec_ref`: abort (`none`) if the refcount is already 0, else
decrement it and push the page back onto the free list exactly when the
count reaches 0. -/
def page_dec_ref (pa : PageAllocator) (p : PageId) : Option PageAllocator :=
  if refcount pa p = 0 then none
  else
    let r := refcount pa p - 1
    some { pa with
           pages := pa.pages.set p r
           free_list := if r = 0 then p :: pa.free_list else pa.free_list }

/-- `page_allocator_pages_in_use`: count of descriptors with positive
refcount (the C code loops `i` over `0..num_pages`). -/
def page_allocator_pages_in_use (pa : PageAllocator) : Nat :=
  (List.range pa.num_pages).countP (fun i => decide (0 < refcount pa i))

/-- `page_allocator_page_bytes`. -/
def page_allocator_page_bytes (pa : PageAllocator) : Nat :=
  pa.page_bytes

/-! ### Generic list helpers -/

theorem getD_set_self {α : Type _} (l : List α) (i : Nat) (v d : α)
    (h : i < l.length) : (l.set i v).getD i d = v := by
  simp [List.getD_eq_getElem?_getD, List.getElem?_set_self, h]

theorem getD_set_ne {α : Type _} (l : List α) (i j : Nat) (v d : α)
    (h : j ≠ i) : (l.set i v).getD j d = l.getD j d := by
  simp [List.getD_eq_getElem?_getD, List.getElem?_set_ne (Ne.symm h)]

theorem getD_replicate {α : Type _} (n i : Nat) (d : α) :
    (List.replicate n d).getD i d = d := by
  rcases lt_or_le i n with h | h
  · simp [List.getD_eq_getElem?_getD, List.getElem?_replicate, h]
  · have hl : (List.replicate n d).length ≤ i := by simpa using h
    simp [List.getD_eq_getElem?_getD, List.getElem?_eq_none hl]

theorem getD_eq_default_of_le {α : Type _} (l : List α) (i : Nat) (d : α)
    (h : l.length ≤ i) : l.getD i d = d := by
  simp [List.getD_eq_getElem?_getD, List.getElem?_eq_none h]

theorem lt_length_of_getD_ne {α : Type _} (l : List α) (i : Nat) (d : α)
    (h : l.getD i d ≠ d) : i < l.length := by
  by_contra hc
  exact h (getD_eq_default_of_le l i d (le_of_not_lt hc))

theorem countP_congr_list {α : Type _} (l : List α) (f g : α → Bool)
    (h : ∀ a ∈ l, f a = g a) : l.countP f = l.countP g := by
  induction l with
  | nil => rfl
  | cons a t ih =>
      rw [List.countP_cons, List.countP_cons, h a (List.mem_cons_self a t),
        ih (fun b hb => h b (List.mem_cons_of_mem a hb))]

theorem countP_add_countP_not {α : Type _} (l : List α) (f : α → Bool) :
    l.countP f + l.countP (fun a => !(f a)) = l.length := by
  induction l with
  | nil => rfl
  | cons a t ih =>
      rw [List.countP_cons, List.countP_cons, List.length_cons]
      cases h : f a <;> simp [h] <;> omega

/-! ### The allocator invariant

`PAInv` is the state invariant of the page allocator: the descriptor
table has `num_pages` entries, the free list holds no duplicates, and a
page is on the free list iff it is a valid handle with refcount zero
(spec §3 "a page is on the free pool iff its refcount is zero"). -/

structure PAInv (pa : PageAllocator) : Prop where
  len_eq : pa.pages.length = pa.num_pages
  nodup : pa.free_list.Nodup
  mem_free : ∀ p, p ∈ pa.free_list ↔ (p < pa.num_pages ∧ refcount pa p = 0)

theorem PAInv_create (cfg : SimConfig) : PAInv (page_allocator_create cfg) := by
  refine ⟨by simp [page_allocator_create], ?_, ?_⟩
  · exact (List.nodup_reverse).2 (List.nodup_range _)
  · intro p
    simp only [page_allocator_create, List.mem_reverse, List.mem_range]
    constructor
    · intro hp
      exact ⟨hp, by simp [refcount, page_allocator_create, getD_replicate]⟩
    · exact fun hp => hp.1

/-- Eliminator for a successful `page_alloc`: the allocated page was the
top of the free list, only its refcount changed (to 1), and the
geometry is untouched. -/
theorem page_alloc_some_elim {pa pa' : PageAllocator} {p : PageId}
    (h : page_alloc pa = some (pa', p)) :
    pa.free_list = p :: pa'.free_list ∧ pa'.pages = pa.pages.set p 1 ∧
      pa'.num_pages = pa.num_pages ∧ pa'.page_bytes = pa.page_bytes := by
  rcases hfl : pa.free_list with _ | ⟨p0, rest⟩
  · simp [page_alloc, hfl] at h
  · simp only [page_alloc, hfl, Option.some.injEq, Prod.mk.injEq] at h
    obtain ⟨hpa', hp⟩ := h
    subst hpa'
    subst hp
    exact ⟨rfl, rfl, rfl, rfl⟩

theorem page_alloc_inv {pa pa' : PageAllocator} {p : PageId}
    (hinv : PAInv pa) (h : page_alloc pa = some (pa', p)) : PAInv pa' := by
  obtain ⟨hfl, hpg, hnp, _⟩ := page_alloc_some_elim h
  have hnodup := hinv.nodup
  rw [hfl] at hnodup
  have hmem : p ∈ pa.free_list := by
    rw [hfl]
    exact List.mem_cons_self _ _
  have hplen : p < pa.pages.length := hinv.len_eq ▸ ((hinv.mem_free p).1 hmem).1
  have href1 : refcount pa' p = 1 := by
    simp only [refcount, hpg]
    exact getD_set_self _ _ _ _ hplen
  have hrefne : ∀ q, q ≠ p → refcount pa' q = refcount pa q := by
    intro q hq
    simp only [refcount, hpg]
    exact getD_set_ne _ _ _ _ _ hq
  refine ⟨?_, (List.nodup_cons.mp hnodup).2, ?_⟩
  · rw [hpg, List.length_set, hinv.len_eq, hnp]
  · intro q
    rw [hnp]
    by_cases hq : q = p
    · subst hq
      rw [href1]
      constructor
      · intro hm
        exact absurd hm (List.nodup_cons.mp hnodup).1
      · rintro ⟨-, hc⟩
        exact absurd hc one_ne_zero
    · rw [hrefne q hq]
      have hmf := hinv.mem_free q
      rw [hfl, List.mem_cons] at hmf
      exact ⟨fun hm => hmf.1 (Or.inr hm), fun hc => (hmf.2 hc).resolve_left hq⟩

theorem page_dec_ref_ref_pos {pa pa' : PageAllocator} {p : PageId}
    (h : page_dec_ref pa p = some pa') : 0 < refcount pa p := by
  by_contra hc
  have hz : refcount pa p = 0 := by omega
  simp [page_dec_ref, hz] at h

/-- Eliminator for a successful `page_dec_ref`. -/
theorem page_dec_ref_some_elim {pa pa' : PageAllocator} {p : PageId}
    (h : page_dec_ref pa p = some pa') :
    0 < refcount pa p ∧ pa'.pages = pa.pages.set p (refcount pa p - 1) ∧
      pa'.free_list
        = (if refcount pa p - 1 = 0 then p :: pa.free_list else pa.free_list) ∧
      pa'.num_pages = pa.num_pages ∧ pa'.page_bytes = pa.page_bytes := by
  have hpos := page_dec_ref_ref_pos h
  have hz : ¬ refcount pa p = 0 := by omega
  simp only [page_dec_ref, hz, if_false, Option.some.injEq] at h
  subst h
  exact ⟨hpos, rfl, rfl, rfl, rfl⟩

theorem page_dec_ref_inv {pa pa' : PageAllocator} {p : PageId}
    (hinv : PAInv pa) (h : page_dec_ref pa p = some pa') : PAInv pa' := by
  obtain ⟨hpos, hpg, hfl, hnp, _⟩ := page_dec_ref_some_elim h
  have hz : ¬ refcount pa p = 0 := by omega
  have hplen : p < pa.pages.length := lt_length_of_getD_ne _ _ _ hz
  have hpnp : p < pa.num_pages := hinv.len_eq ▸ hplen
  have hpnotmem : p ∉ pa.free_list := fun hm => hz ((hinv.mem_free p).1 hm).2
  have hrefp : refcount pa' p = refcount pa p - 1 := by
    simp only [refcount, hpg]
    exact getD_set_self _ _ _ _ hplen
  have hrefne : ∀ q, q ≠ p → refcount pa' q = refcount pa q := by
    intro q hq
    simp only [refcount, hpg]
    exact getD_set_ne _ _ _ _ _ hq
  refine ⟨?_, ?_, ?_⟩
  · rw [hpg, List.length_set, hinv.len_eq, hnp]
  · rw [hfl]
    by_cases hr : refcount pa p - 1 = 0
    · rw [if_pos hr]
      exact List.nodup_cons.mpr ⟨hpnotmem, hinv.nodup⟩
    · rw [if_neg hr]
      exact hinv.nodup
  · intro q
    rw [hnp, hfl]
    by_cases hq : q = p
    · subst hq
      rw [hrefp]
      by_cases hr : refcount pa q - 1 = 0
      · rw [if_pos hr]
        exact ⟨fun _ => ⟨hpnp, hr⟩, fun _ => List.mem_cons_self q pa.free_list⟩
      · rw [if_neg hr]
        exact ⟨fun hm => absurd hm hpnotmem, fun hc => absurd hc.2 hr⟩
    · rw [hrefne q hq]
      have hmf := hinv.mem_free q
      by_cases hr : refcount pa p - 1 = 0
      · rw [if_pos hr, List.mem_cons]
        exact ⟨fun hm => hmf.1 (hm.resolve_left hq), fun hc => Or.inr (hmf.2 hc)⟩
      · rw [if_neg hr]
        exact hmf

theorem page_inc_ref_inv {pa : PageAllocator} {p : PageId}
    (hinv : PAInv pa) (hpos : 0 < refcount pa p) : PAInv (page_inc_ref pa p) := by
  have hz : ¬ refcount pa p = 0 := by omega
  have hplen : p < pa.pages.length := lt_length_of_getD_ne _ _ _ hz
  have hpnotmem : p ∉ pa.free_list := fun hm => hz ((hinv.mem_free p).1 hm).2
  refine ⟨by simpa [page_inc_ref] using hinv.len_eq, hinv.nodup, ?_⟩
  intro q
  show q ∈ pa.free_list ↔
    q < pa.num_pages ∧ (pa.pages.set p (refcount pa p + 1)).getD q 0 = 0
  by_cases hq : q = p
  · subst hq
    rw [getD_set_self _ _ _ _ hplen]
    exact ⟨fun hm => absurd hm hpnotmem, fun hc => by omega⟩
  · rw [getD_set_ne _ _ _ _ _ hq]
    exact hinv.mem_free q

/-! ### Allocator operation traces (for C2)

`runPAOp` runs a single allocator operation, returning `none` when the
operation aborts (`alloc` on an empty free list, `dec_ref` at refcount
0) or when the claim's side condition for `inc_ref` (the caller already
holds a reference, i.e. refcount positive) is violated. -/

inductive PAOp where
  | op_alloc : PAOp
  | op_dec_ref : PageId → PAOp
  | op_inc_ref : PageId → PAOp
deriving Repr, DecidableEq

def runPAOp (pa : PageAllocator) : PAOp → Option PageAllocator
  | .op_alloc => (page_alloc pa).map Prod.fst
  | .op_dec_ref p => page_dec_ref pa p
  | .op_inc_ref p => if 0 < refcount pa p then some (page_inc_ref pa p) else none

def runPAOps (pa : PageAllocator) : List PAOp → Option PageAllocator
  | [] => some pa
  | op :: ops =>
      match runPAOp pa op with
      | none => none
      | some pa1 => runPAOps pa1 ops

theorem runPAOp_inv {pa pa' : PageAllocator} {op : PAOp}
    (hinv : PAInv pa) (h : runPAOp pa op = some pa') : PAInv pa' := by
  cases op with
  | op_alloc =>
      simp only [runPAOp] at h
      rcases hh : page_alloc pa with _ | ⟨pa1, p⟩
      · rw [hh] at h
        exact absurd h (by simp)
      · rw [hh] at h
        have h1 : pa1 = pa' := Option.some.inj h
        exact h1 ▸ page_alloc_inv hinv hh
  | op_dec_ref p => exact page_dec_ref_inv hinv h
  | op_inc_ref p =>
      simp only [runPAOp] at h
      by_cases hpos : 0 < refcount pa p
      · rw [if_pos hpos] at h
        exact Option.some.inj h ▸ page_inc_ref_inv hinv hpos
      · rw [if_neg hpos] at h
        exact absurd h (by simp)

theorem runPAOps_inv {pa pa' : PageAllocator} {ops : List PAOp}
    (hinv : PAInv pa) (h : runPAOps pa ops = some pa') : PAInv pa' := by
  induction ops generalizing pa with
  | nil => exact (Option.some.inj h) ▸ hinv
  | cons op ops ih =>
      simp only [runPAOps] at h
      rcases hop : runPAOp pa op with _ | pa1
      · rw [hop] at h; exact absurd h (by simp)
      · rw [hop] at h
        exact ih (runPAOp_inv hinv hop) h

/-- Conservation is a consequence of the invariant: the free list is a
permutation of the refcount-zero valid handles, and the used pages are
the rest. -/
theorem PAInv.conservation {pa : PageAllocator} (hinv : PAInv pa) :
    free_count pa + page_allocator_pages_in_use pa = pa.num_pages := by
  have hperm : List.Perm pa.free_list
      ((List.range pa.num_pages).filter (fun p => decide (refcount pa p = 0))) := by
    rw [List.perm_ext_iff_of_nodup hinv.nodup (List.Nodup.filter _ (List.nodup_range _))]
    intro q
    rw [List.mem_filter, List.mem_range, decide_eq_true_eq]
    exact hinv.mem_free q
  have hfc : free_count pa =
      (List.range pa.num_pages).countP (fun p => decide (refcount pa p = 0)) := by
    rw [free_count, hperm.length_eq, List.countP_eq_length_filter]
  have hsplit0 := countP_add_countP_not (List.range pa.num_pages)
    (fun p => decide (0 < refcount pa p))
  have hsplit : (List.range pa.num_pages).countP (fun p => decide (0 < refcount pa p))
      + (List.range pa.num_pages).countP (fun p => !(decide (0 < refcount pa p)))
      = (List.range pa.num_pages).length := hsplit0
  rw [List.length_range] at hsplit
  have hcongr : (List.range pa.num_pages).countP
        (fun p => !(decide (0 < refcount pa p)))
      = (List.range pa.num_pages).countP (fun p => decide (refcount pa p = 0)) := by
    apply countP_congr_list
    intro a _
    by_cases h : refcount pa a = 0 <;> simp [h, Nat.pos_iff_ne_zero]
  rw [hfc, page_allocator_pages_in_use, ← hcongr]
  omega

/-- **C2** (confirmed). Allocator conservation: starting from
`page_allocator_create` and running any interleaving of `alloc`,
`dec_ref` and `inc_ref` (with `inc_ref` and `dec_ref` applied only to
pages with positive refcount — violating calls make the trace abort),
every resulting state satisfies
`free_count + #(pages with refcount > 0) = num_pages`, and a page is on
the free list iff its refcount is zero.  (Every prefix of a successful
trace is itself a successful trace, so this covers the state after each
operation.) -/
theorem C2_allocator_conservation (cfg : SimConfig) (ops : List PAOp)
    (pa : PageAllocator)
    (h : runPAOps (page_allocator_create cfg) ops = some pa) :
    free_count pa + page_allocator_pages_in_use pa = pa.num_pages ∧
      ∀ p < pa.num_pages, (p ∈ pa.free_list ↔ refcount pa p = 0) := by
  have hinv := runPAOps_inv (PAInv_create cfg) h
  exact ⟨hinv.conservation, fun p hp =>
    ⟨fun hm => ((hinv.mem_free p).1 hm).2, fun hz => (hinv.mem_free p).2 ⟨hp, hz⟩⟩⟩

def cfgW2 : SimConfig :=
  { num_layers := 1, num_heads := 1, head_dim := 1, max_context_tokens := 2048
    tokens_per_page := 1, arena_bytes := 12, num_sequences := 1, num_groups := 0
    max_prompt_extra := 0, min_gen_tokens := 0, max_gen_tokens := 0 }

def opsW2 : List PAOp :=
  [.op_alloc, .op_alloc, .op_inc_ref 2, .op_dec_ref 2, .op_dec_ref 2, .op_alloc]

def paW2 : PageAllocator :=
  { page_bytes := 4, num_pages := 3, pages := [0, 1, 1], free_list := [0] }

theorem C2_allocator_conservation_witness :
    runPAOps (page_allocator_create cfgW2) opsW2 = some paW2 ∧
      free_count paW2 + page_allocator_pages_in_use paW2 = paW2.num_pages := by
  have hrun : runPAOps (page_allocator_create cfgW2) opsW2 = some paW2 := by decide
  exact ⟨hrun, (C2_allocator_conservation cfgW2 opsW2 paW2 hrun).1⟩

/-- **C3** (confirmed). `page_alloc` on an empty free list aborts
(`none`, modelling the fatal `abort()`); on a non-empty free list it
removes exactly one page from the free pool, sets its refcount to
exactly 1, and changes no other page's refcount or free-list
membership. -/
theorem C3_page_alloc_spec (pa : PageAllocator) (hinv : PAInv pa) :
    (pa.free_list = [] → page_alloc pa = none) ∧
      ∀ pa' p, page_alloc pa = some (pa', p) →
        p ∈ pa.free_list ∧ p ∉ pa'.free_list ∧
        free_count pa' + 1 = free_count pa ∧
        refcount pa' p = 1 ∧
        (∀ q, q ≠ p → refcount pa' q = refcount pa q) ∧
        (∀ q, q ≠ p → (q ∈ pa'.free_list ↔ q ∈ pa.free_list)) := by
  constructor
  · intro hfl
    simp [page_alloc, hfl]
  · intro pa' p h
    obtain ⟨hfl, hpg, _, _⟩ := page_alloc_some_elim h
    have hnodup := hinv.nodup
    rw [hfl] at hnodup
    have hmem : p ∈ pa.free_list := by
      rw [hfl]
      exact List.mem_cons_self _ _
    have hplen : p < pa.pages.length :=
      hinv.len_eq ▸ ((hinv.mem_free p).1 hmem).1
    refine ⟨hmem, (List.nodup_cons.mp hnodup).1, ?_, ?_, ?_, ?_⟩
    · simp only [free_count, hfl, List.length_cons]
    · simp only [refcount, hpg]
      exact getD_set_self _ _ _ _ hplen
    · intro q hq
      simp only [refcount, hpg]
      exact getD_set_ne _ _ _ _ _ hq
    · intro q hq
      rw [hfl, List.mem_cons]
      exact ⟨fun hm => Or.inr hm, fun hm => hm.resolve_left hq⟩

def paW3 : PageAllocator :=
  { page_bytes := 4, num_pages := 3, pages := [0, 0, 1], free_list := [1, 0] }

theorem C3_page_alloc_spec_witness :
    page_alloc (page_allocator_create cfgW2) = some (paW3, 2) ∧
      refcount paW3 2 = 1 ∧
      free_count paW3 + 1 = free_count (page_allocator_create cfgW2) := by
  have h : page_alloc (page_allocator_create cfgW2) = some (paW3, 2) := by decide
  obtain ⟨_, _, h3, h4, _, _⟩ :=
    (C3_page_alloc_spec _ (PAInv_create cfgW2)).2 paW3 2 h
  exact ⟨h, h4, h3⟩

/-- **C4** (confirmed). `page_dec_ref` on a page at refcount 0 aborts
(`none`, modelling the fatal `abort()`, which leaves no successor
state); otherwise it decrements the refcount by one, pushes the page
onto the free pool exactly when the new count is 0, keeps it off the
free pool while the count stays positive, and changes no other page. -/
theorem C4_page_dec_ref_spec (pa : PageAllocator) (p : PageId) :
    (refcount pa p = 0 → page_dec_ref pa p = none) ∧
      ∀ pa', page_dec_ref pa p = some pa' →
        refcount pa' p + 1 = refcount pa p ∧
        (refcount pa' p = 0 → pa'.free_list = p :: pa.free_list) ∧
        (0 < refcount pa' p → pa'.free_list = pa.free_list) ∧
        (∀ q, q ≠ p → refcount pa' q = refcount pa q) := by
  constructor
  · intro hz
    simp [page_dec_ref, hz]
  · intro pa' h
    obtain ⟨hpos, hpg, hfl, _, _⟩ := page_dec_ref_some_elim h
    have hz : ¬ refcount pa p = 0 := by omega
    have hplen : p < pa.pages.length := lt_length_of_getD_ne _ _ _ hz
    have hrefp : refcount pa' p = refcount pa p - 1 := by
      simp only [refcount, hpg]
      exact getD_set_self _ _ _ _ hplen
    refine ⟨?_, ?_, ?_, ?_⟩
    · rw [hrefp]
      omega
    · intro h0
      rw [hrefp] at h0
      rw [hfl, if_pos h0]
    · intro h0
      rw [hrefp] at h0
      rw [hfl, if_neg (by omega)]
    · intro q hq
      simp only [refcount, hpg]
      exact getD_set_ne _ _ _ _ _ hq

def paW4 : PageAllocator :=
  { page_bytes := 4, num_pages := 3, pages := [0, 0, 0], free_list := [2, 1, 0] }

theorem C4_page_dec_ref_spec_witness :
    page_dec_ref paW3 2 = some paW4 ∧
      paW4.free_list = 2 :: paW3.free_list ∧
      page_dec_ref paW3 0 = none := by
  have h : page_dec_ref paW3 2 = some paW4 := by decide
  refine ⟨h, ?_, ?_⟩
  · exact ((C4_page_dec_ref_spec paW3 2).2 paW4 h).2.1 (by decide)
  · exact (C4_page_dec_ref_spec paW3 0).1 (by decide)

/-! ## Monolithic backend (`mono_kv.c`) -/

structure MonoSeqState where
  max_tokens : Nat
  cur_tokens : Nat
  bytes_per_token : Nat
deriving Repr, DecidableEq

structure MonoKV where
  cfg : SimConfig
  seqs : List MonoSeqState
deriving Repr, DecidableEq

def create_monolithic_backend (cfg : SimConfig) : MonoKV :=
  { cfg := cfg, seqs := [] }

/-- `mono_init_sequence`.  NOTE: the C code hardcodes
`s->max_tokens = 4096;` — it does not read `max_context_tokens` from the
configuration (see C1). -/
def mono_init_sequence (impl : MonoKV) (_work : SequenceWork) : MonoKV × Nat :=
  (( { impl with seqs := impl.seqs ++
        [{ max_tokens := 4096, cur_tokens := 0,
           bytes_per_token := bytes_per_token impl.cfg }] } : MonoKV),
   impl.seqs.length)

/-- `mono_append_token`: increment `cur_tokens` if below the sequence's
`max_tokens`, else no-op. -/
def mono_append_token (impl : MonoKV) (id : Nat) : MonoKV :=
  match impl.seqs[id]? with
  | none => impl
  | some s =>
      if s.cur_tokens < s.max_tokens then
        { impl with seqs := impl.seqs.set id { s with cur_tokens := s.cur_tokens + 1 } }
      else impl

/-- `mono_finish_sequence`: a no-op (buffers persist for stats). -/
def mono_finish_sequence (impl : MonoKV) (_id : Nat) : MonoKV :=
  impl

/-- `mono_stats`: sums `cur_tokens` and `max_tokens * bytes_per_token`
over all sequences. -/
def mono_stats (impl : MonoKV) : KVStats :=
  let lt := impl.seqs.foldl (fun acc s => acc + s.cur_tokens) 0
  let phys := impl.seqs.foldl (fun acc s => acc + s.max_tokens * s.bytes_per_token) 0
  { logical_tokens := lt
    logical_bytes := lt * bytes_per_token impl.cfg
    physical_bytes := phys }

/-- The configuration set in `main.c` (with `bytes_per_token = 8192`,
`max_context_tokens = 2048`). -/
def mainCfg : SimConfig :=
  { num_layers := 4, num_heads := 8, head_dim := 64, max_context_tokens := 2048
    tokens_per_page := 16, arena_bytes := 2147483648, num_sequences := 128
    num_groups := 4, max_prompt_extra := 256, min_gen_tokens := 128
    max_gen_tokens := 1024 }

/-- **C1** (code_bug). The claim (and spec §4.5, §8.7, the README's
"fixed-size buffer for 2048 tokens", and `main.c`'s own label
"Monolithic (fixed 2048)") says every `mono_init_sequence` reserves
`max_context_tokens × bytes_per_token` bytes; the code instead hardcodes
`max_tokens = 4096`.  At `main.c`'s configuration
(`max_context_tokens = 2048`, `bytes_per_token = 8192`) a single
initialized sequence yields `physical_bytes = 4096 × 8192 = 33554432`,
not the claimed `1 × 2048 × 8192 = 16777216`. -/
theorem C1_mono_physical_bytes :
    (mono_stats (mono_init_sequence (create_monolithic_backend mainCfg)
        { prompt_tokens := 256, gen_tokens := 256, shared_prompt_tokens := 0,
          shared_prompt_id := -1 }).1).physical_bytes = 4096 * 8192 ∧
      1 * mainCfg.max_context_tokens * bytes_per_token mainCfg = 2048 * 8192 ∧
      (4096 * 8192 : Nat) ≠ 2048 * 8192 := by
  exact ⟨rfl, rfl, by decide⟩

/-! ## Paged backend (`page_kv.c`)

`PagedSeqState.slots` is the slot vector: the list length is the C
`slots_capacity`, entries are `some page` or `none` (empty).
`SharedPref` is the C `SharedPrefix` (renamed, see the file header);
its C field `num_pages` is `pages.length` here. -/

structure PagedSeqState where
  slots : List (Option PageId)
  cur_tokens : Nat
  shared_prefix_tokens : Nat
deriving Repr, DecidableEq

structure SharedPref where
  pages : List PageId
  pref_tokens : Nat
  built : Bool
deriving Repr, DecidableEq

instance : Inhabited SharedPref :=
  ⟨{ pages := [], pref_tokens := 0, built := false }⟩

structure PagedKV where
  cfg : SimConfig
  alloc : PageAllocator
  seqs : List PagedSeqState
  groups : List SharedPref
deriving Repr, DecidableEq

/-- The capacity-doubling loop of `paged_seq_reserve_slots`
(`new_cap *= 2` while `new_cap < n`), written with explicit fuel so it
reduces in the kernel; `n` units of fuel always suffice because the
capacity at least doubles each round (see `grow_cap_ge`). -/
def grow_cap_fuel : Nat → Nat → Nat → Nat
  | 0, cap, _ => cap
  | fuel + 1, cap, n =>
      if 0 < cap ∧ cap < n then grow_cap_fuel fuel (cap * 2) n else cap

def grow_cap (cap n : Nat) : Nat :=
  grow_cap_fuel n cap n

/-- `paged_seq_reserve_slots`: if the capacity is below `n`, grow to the
doubled capacity (starting from 4), new entries empty (`NULL`). -/
def reserve_slots (slots : List (Option PageId)) (n : Nat) : List (Option PageId) :=
  if n ≤ slots.length then slots
  else
    slots ++ List.replicate
      (grow_cap (if slots.length = 0 then 4 else slots.length * 2) n
        - slots.length) none

/-- `shareable_tokens`: round down to a multiple of `tokens_per_page`
(0 if `tokens_per_page` is 0). -/
def shareable_tokens (cfg : SimConfig) (tokens : Nat) : Nat :=
  if cfg.tokens_per_page = 0 then 0
  else (tokens / cfg.tokens_per_page) * cfg.tokens_per_page

/-- The allocation loop of the group-entry builder: allocate `n` pages
in order, collecting the handles (abort propagates). -/
def alloc_pages (pa : PageAllocator) : Nat → Option (PageAllocator × List PageId)
  | 0 => some (pa, [])
  | n + 1 =>
      match page_alloc pa with
      | none => none
      | some (pa1, p) =>
          match alloc_pages pa1 n with
          | none => none
          | some (pa2, ps) => some (pa2, p :: ps)

/-- `build_shared_prefix` (renamed `build_shared_pref`): allocate
`ceil(pref_tokens / tokens_per_page)` pages for a new group entry; a
zero-token request returns the zero entry. -/
def build_shared_pref (cfg : SimConfig) (pa : PageAllocator) (pref_tokens : Nat) :
    Option (PageAllocator × SharedPref) :=
  if pref_tokens = 0 then some (pa, { pages := [], pref_tokens := 0, built := false })
  else
    let tpp := cfg.tokens_per_page
    let pages_needed := (pref_tokens + tpp - 1) / tpp
    match alloc_pages pa pages_needed with
    | none => none
    | some (pa1, ps) => some (pa1, { pages := ps, pref_tokens := pref_tokens, built := true })

/-- The attach loop of `paged_init_sequence` step (d): for each prefix
page in order, `inc_ref` it and write it into the next slot. -/
def attach_go (pa : PageAllocator) (slots : List (Option PageId)) (i : Nat) :
    List PageId → PageAllocator × List (Option PageId)
  | [] => (pa, slots)
  | p :: ps => attach_go (page_inc_ref pa p) (slots.set i (some p)) (i + 1) ps

/-- Step 3 of `paged_init_sequence`:
`shared_tokens = floor(shared_prompt_tokens / tokens_per_page) × tokens_per_page`
when `shared_prompt_id ≥ 0`, else 0. -/
def declared_shared_tokens (impl : PagedKV) (work : SequenceWork) : Nat :=
  if 0 ≤ work.shared_prompt_id then shareable_tokens impl.cfg work.shared_prompt_tokens
  else 0

/-- `gid = (size_t) shared_prompt_id % num_groups`. -/
def group_id (impl : PagedKV) (work : SequenceWork) : Nat :=
  work.shared_prompt_id.toNat % impl.groups.length

/-- The body of `paged_init_sequence`: computes the new allocator
state, the new group table and the fresh sequence's state (the caller
appends the sequence and returns the fresh id).  If sharing applies,
the group entry is built on first use, the entry's prefix length is
adopted when it differs from the declared one, and the entry's pages
are attached into the leading slots (one `inc_ref` each). -/
def paged_init_core (impl : PagedKV) (work : SequenceWork) :
    Option (PageAllocator × List SharedPref × PagedSeqState) :=
  if 0 < declared_shared_tokens impl work ∧ 0 < impl.groups.length then
    let pref0 := impl.groups.getD (group_id impl work) default
    if pref0.built then
      let sht := if pref0.pref_tokens ≠ declared_shared_tokens impl work
        then pref0.pref_tokens else declared_shared_tokens impl work
      let att := attach_go impl.alloc (reserve_slots [] pref0.pages.length) 0 pref0.pages
      some (att.1, impl.groups,
        { slots := att.2, cur_tokens := 0, shared_prefix_tokens := sht })
    else
      match build_shared_pref impl.cfg impl.alloc (declared_shared_tokens impl work) with
      | none => none
      | some (pa1, pref) =>
          let att := attach_go pa1 (reserve_slots [] pref.pages.length) 0 pref.pages
          some (att.1, impl.groups.set (group_id impl work) pref,
            { slots := att.2, cur_tokens := 0,
              shared_prefix_tokens := pref.pref_tokens })
  else
    some (impl.alloc, impl.groups,
      { slots := [], cur_tokens := 0, shared_prefix_tokens := 0 })

/-- `paged_init_sequence`: run the body, append the fresh sequence,
return the fresh id (`num_seqs++`). -/
def paged_init_sequence (impl : PagedKV) (work : SequenceWork) :
    Option (PagedKV × Nat) :=
  match paged_init_core impl work with
  | none => none
  | some r =>
      some ({ impl with
                alloc := r.1
                groups := r.2.1
                seqs := impl.seqs ++ [r.2.2] },
            impl.seqs.length)

/-- One `paged_append_token` step on (allocator, one sequence); the C
function touches only the allocator and the sequence's own state.
Clamp at `max_context_tokens`; fast path if the covering slot is
populated; otherwise grow the slot table if needed and allocate a fresh
page into the empty slot; then increment `cur_tokens`. -/
def append_step (cfg : SimConfig) (pa : PageAllocator) (s : PagedSeqState) :
    Option (PageAllocator × PagedSeqState) :=
  if cfg.max_context_tokens ≤ s.cur_tokens then some (pa, s)
  else
    let idx := s.cur_tokens
    let page_idx := idx / cfg.tokens_per_page
    let slots1 :=
      if s.slots.length ≤ page_idx then reserve_slots s.slots (page_idx + 1)
      else s.slots
    if (slots1.getD page_idx none).isSome then
      some (pa, { s with slots := slots1, cur_tokens := idx + 1 })
    else
      match page_alloc pa with
      | none => none
      | some (pa1, p) =>
          some (pa1, { s with
                        slots := slots1.set page_idx (some p)
                        cur_tokens := idx + 1 })

/-- `paged_append_token` (out-of-range ids are undefined in C and
modelled as a no-op; all claims use valid ids). -/
def paged_append_token (impl : PagedKV) (id : Nat) : Option PagedKV :=
  match impl.seqs[id]? with
  | none => some impl
  | some s =>
      match append_step impl.cfg impl.alloc s with
      | none => none
      | some (pa, s1) =>
          some { impl with alloc := pa, seqs := impl.seqs.set id s1 }

/-- `n` serial `paged_append_token` calls on one sequence. -/
def appendN (impl : PagedKV) (id : Nat) : Nat → Option PagedKV
  | 0 => some impl
  | n + 1 =>
      match paged_append_token impl id with
      | none => none
      | some impl1 => appendN impl1 id n

/-- The release loop of `paged_finish_sequence`: `dec_ref` every
populated slot in order. -/
def dec_slots (pa : PageAllocator) : List (Option PageId) → Option PageAllocator
  | [] => some pa
  | none :: rest => dec_slots pa rest
  | some p :: rest =>
      match page_dec_ref pa p with
      | none => none
      | some pa1 => dec_slots pa1 rest

/-- `paged_finish_sequence`: release every populated slot, clear the
slot table (capacity kept), reset `cur_tokens` and
`shared_prefix_tokens`; out-of-range ids are a no-op. -/
def paged_finish_sequence (impl : PagedKV) (id : Nat) : Option PagedKV :=
  match impl.seqs[id]? with
  | none => some impl
  | some s =>
      match dec_slots impl.alloc s.slots with
      | none => none
      | some pa =>
          some { impl with
                  alloc := pa
                  seqs := impl.seqs.set id
                    { slots := List.replicate s.slots.length none,
                      cur_tokens := 0, shared_prefix_tokens := 0 } }

/-- `paged_stats`: sum of `cur_tokens`, and
`physical_bytes = pages_in_use × page_bytes`. -/
def paged_stats (impl : PagedKV) : KVStats :=
  let lt := impl.seqs.foldl (fun acc s => acc + s.cur_tokens) 0
  { logical_tokens := lt
    logical_bytes := lt * bytes_per_token impl.cfg
    physical_bytes :=
      page_allocator_pages_in_use impl.alloc * page_allocator_page_bytes impl.alloc }

/-- `paged_stats` threaded as a state transformer (the C function
receives the backend pointer and could mutate it): it reads every
sequence's `cur_tokens` and queries the allocator, and performs no
write, so the state out is the state in. -/
def paged_stats_run (impl : PagedKV) : KVStats × PagedKV :=
  (paged_stats impl, impl)

/-- `create_paged_backend`: fresh allocator, no sequences,
`num_groups` zero-initialized (unbuilt) group entries. -/
def create_paged_backend (cfg : SimConfig) : PagedKV :=
  { cfg := cfg
    alloc := page_allocator_create cfg
    seqs := []
    groups := List.replicate cfg.num_groups default }

/-- **C10** (confirmed). `paged_stats` is read-only: the state after a
`stats` call is exactly the state before it — every sequence, every
refcount and the free list included — and two consecutive calls with no
intervening operation return the same triple. -/
theorem C10_stats_readonly (impl : PagedKV) :
    (paged_stats_run impl).2 = impl ∧
      (paged_stats_run (paged_stats_run impl).2).1 = (paged_stats_run impl).1 ∧
      (paged_stats_run impl).2.seqs = impl.seqs ∧
      (paged_stats_run impl).2.alloc = impl.alloc ∧
      (paged_stats_run impl).2.groups = impl.groups :=
  ⟨rfl, rfl, rfl, rfl, rfl⟩

/-! ## Page-granular arithmetic

`ceil_div a b = (a + b - 1) / b` is the ceiling division as the C
sources compute it. -/

def ceil_div (a b : Nat) : Nat :=
  (a + b - 1) / b

theorem ceil_div_zero_left (b : Nat) : ceil_div 0 b = 0 := by
  unfold ceil_div
  rcases Nat.eq_zero_or_pos b with h | h
  · simp [h]
  · rw [Nat.zero_add]
    exact Nat.div_eq_of_lt (by omega)

theorem ceil_div_succ_mod_zero {b c : Nat} (hb : 0 < b) (h : c % b = 0) :
    ceil_div c b = c / b ∧ ceil_div (c + 1) b = c / b + 1 := by
  have hdm := Nat.div_add_mod c b
  have hx : b * (c / b + 1) = b * (c / b) + b := by ring
  constructor
  · show (c + b - 1) / b = c / b
    have h1 : c + b - 1 = b * (c / b) + (b - 1) := by omega
    rw [h1, Nat.mul_add_div hb, Nat.div_eq_of_lt (show b - 1 < b by omega),
      Nat.add_zero]
  · show (c + 1 + b - 1) / b = c / b + 1
    have h1 : c + 1 + b - 1 = b * (c / b + 1) + 0 := by omega
    rw [h1, Nat.mul_add_div hb, Nat.zero_div, Nat.add_zero]

theorem ceil_div_succ_mod_ne {b c : Nat} (hb : 0 < b) (h : c % b ≠ 0) :
    ceil_div c b = c / b + 1 ∧ ceil_div (c + 1) b = ceil_div c b := by
  have hdm := Nat.div_add_mod c b
  have hmlt : c % b < b := Nat.mod_lt _ hb
  have hx : b * (c / b + 1) = b * (c / b) + b := by ring
  have hc1 : (c + b - 1) / b = c / b + 1 := by
    have h1 : c + b - 1 = b * (c / b + 1) + (c % b - 1) := by omega
    rw [h1, Nat.mul_add_div hb, Nat.div_eq_of_lt (show c % b - 1 < b by omega),
      Nat.add_zero]
  have hc2 : (c + 1 + b - 1) / b = c / b + 1 := by
    have h1 : c + 1 + b - 1 = b * (c / b + 1) + c % b := by omega
    rw [h1, Nat.mul_add_div hb, Nat.div_eq_of_lt hmlt, Nat.add_zero]
  exact ⟨hc1, by rw [show ceil_div (c + 1) b = (c + 1 + b - 1) / b from rfl, hc2,
    show ceil_div c b = (c + b - 1) / b from rfl, hc1]⟩

theorem lt_ceil_div_iff {b c i : Nat} (hb : 0 < b) :
    i < ceil_div c b ↔ i * b < c := by
  unfold ceil_div
  rw [Nat.lt_iff_add_one_le, Nat.le_div_iff_mul_le hb]
  have h1 : (i + 1) * b = i * b + b := by ring
  omega

theorem le_ceil_div_mul {b : Nat} (c : Nat) (hb : 0 < b) :
    c ≤ ceil_div c b * b := by
  by_contra hc
  push_neg at hc
  have := (lt_ceil_div_iff hb (c := c) (i := ceil_div c b)).2 hc
  omega

theorem ceil_div_le_ceil_div {b c d : Nat} (h : c ≤ d) :
    ceil_div c b ≤ ceil_div d b :=
  Nat.div_le_div_right (by omega)

/-! ## Slot-table lemmas -/

def slotVal (s : PagedSeqState) (i : Nat) : Option PageId :=
  s.slots.getD i none

def populated_count (s : PagedSeqState) : Nat :=
  s.slots.countP Option.isSome

theorem getD_append_replicate_none {α : Type _} (l : List (Option α)) (m i : Nat) :
    (l ++ List.replicate m (none : Option α)).getD i none = l.getD i none := by
  rcases lt_or_le i l.length with h | h
  · rw [List.getD_eq_getElem?_getD, List.getElem?_append, if_pos h,
      ← List.getD_eq_getElem?_getD]
  · rw [getD_eq_default_of_le l i none h]
    rw [List.getD_eq_getElem?_getD, List.getElem?_append,
      if_neg (by omega), List.getElem?_replicate]
    split <;> rfl

theorem countP_isSome_replicate_none {α : Type _} (m : Nat) :
    (List.replicate m (none : Option α)).countP Option.isSome = 0 := by
  induction m with
  | zero => rfl
  | succ k ih =>
      rw [List.replicate_succ, List.countP_cons]
      simp [ih]

theorem countP_isSome_append_replicate_none {α : Type _}
    (l : List (Option α)) (m : Nat) :
    (l ++ List.replicate m (none : Option α)).countP Option.isSome
      = l.countP Option.isSome := by
  rw [List.countP_append, countP_isSome_replicate_none, Nat.add_zero]

theorem count_replicate_none {α : Type _} [DecidableEq α] (m : Nat) (q : α) :
    (List.replicate m (none : Option α)).count (some q) = 0 := by
  induction m with
  | zero => rfl
  | succ k ih =>
      rw [List.replicate_succ, List.count_cons]
      simp [ih]

theorem grow_cap_fuel_ge (fuel : Nat) :
    ∀ cap n, 0 < cap → n ≤ cap * 2 ^ fuel → n ≤ grow_cap_fuel fuel cap n := by
  induction fuel with
  | zero =>
      intro cap n hc hle
      simpa [grow_cap_fuel] using hle
  | succ fuel ih =>
      intro cap n hc hle
      rw [grow_cap_fuel]
      split
      next hcond =>
        apply ih (cap * 2) n (by omega)
        calc n ≤ cap * 2 ^ (fuel + 1) := hle
          _ = cap * 2 * 2 ^ fuel := by ring
      next hcond => omega

theorem grow_cap_ge (cap n : Nat) (h : 0 < cap) : n ≤ grow_cap cap n := by
  apply grow_cap_fuel_ge n cap n h
  have h1 : n < 2 ^ n := Nat.lt_two_pow n
  have h2 : 1 * 2 ^ n ≤ cap * 2 ^ n := by
    apply Nat.mul_le_mul_right
    omega
  omega

theorem reserve_slots_length_ge (l : List (Option PageId)) (n : Nat) :
    n ≤ (reserve_slots l n).length ∧ l.length ≤ (reserve_slots l n).length := by
  unfold reserve_slots
  split
  next h => exact ⟨h, le_refl _⟩
  next h =>
    rw [List.length_append, List.length_replicate]
    have hstart : 0 < (if l.length = 0 then 4 else l.length * 2) := by
      split <;> omega
    have hge := grow_cap_ge _ n hstart
    omega

theorem reserve_slots_getD (l : List (Option PageId)) (n i : Nat) :
    (reserve_slots l n).getD i none = l.getD i none := by
  unfold reserve_slots
  split
  · rfl
  · exact getD_append_replicate_none l _ i

theorem reserve_slots_countP (l : List (Option PageId)) (n : Nat) :
    (reserve_slots l n).countP Option.isSome = l.countP Option.isSome := by
  unfold reserve_slots
  split
  · rfl
  · exact countP_isSome_append_replicate_none l _

/-- A slot table whose populated entries are exactly the indices below
`c` has exactly `c` populated entries. -/
theorem countP_isSome_of_pattern {α : Type _} (l : List (Option α)) (c : Nat)
    (h : ∀ i, ((l.getD i none).isSome = true ↔ i < c)) :
    l.countP Option.isSome = c := by
  induction l generalizing c with
  | nil =>
      have hc : c = 0 := by
        by_contra hc0
        have := (h 0).2 (by omega)
        simp [List.getD] at this
      simp [hc]
  | cons a t ih =>
      rcases c with _ | k
      · have ha : a.isSome = false := by
          have h0 := h 0
          rw [List.getD_cons_zero] at h0
          simp at h0
          simp [h0]
        have ht : t.countP Option.isSome = 0 := by
          apply ih
          intro i
          have hi := h (i + 1)
          rw [List.getD_cons_succ] at hi
          simpa using hi
        rw [List.countP_cons, ht, ha]
        rfl
      · have ha : a.isSome = true := by
          have h0 := h 0
          rw [List.getD_cons_zero] at h0
          exact h0.2 (by omega)
        have ht : t.countP Option.isSome = k := by
          apply ih
          intro i
          have hi := h (i + 1)
          rw [List.getD_cons_succ] at hi
          constructor
          · intro hh
            have := hi.1 hh
            omega
          · intro hh
            exact hi.2 (by omega)
        rw [List.countP_cons, ht, ha]
        rfl

theorem isSome_getD_lt_length {α : Type _} (l : List (Option α)) (i : Nat)
    (h : (l.getD i none).isSome = true) : i < l.length := by
  apply lt_length_of_getD_ne
  intro hc
  rw [hc] at h
  simp at h

theorem page_alloc_none_free_nil {pa : PageAllocator}
    (h : page_alloc pa = none) : pa.free_list = [] := by
  rcases hfl : pa.free_list with _ | ⟨q, rest⟩
  · rfl
  · simp [page_alloc, hfl] at h

/-! ## The per-sequence append automaton

`SeqShape cfg c s` says the sequence has produced `c` tokens and its
populated slots are exactly the first `ceil(c / tokens_per_page)`
entries — the state of a fresh sequence (no shared prefix) after `c`
appends. -/

def SeqShape (cfg : SimConfig) (c : Nat) (s : PagedSeqState) : Prop :=
  s.cur_tokens = c ∧
    ∀ i, ((s.slots.getD i none).isSome = true ↔ i < ceil_div c cfg.tokens_per_page)

/-- Characterization of a successful `append_step` from a `SeqShape`
state below the ceiling: the resulting state has shape `c + 1`; a page
is allocated exactly at page boundaries (`c % tokens_per_page = 0`),
otherwise the allocator is untouched. -/
theorem append_step_some_shape {cfg : SimConfig} {pa pa1 : PageAllocator}
    {s s1 : PagedSeqState} {c : Nat}
    (htpp : 0 < cfg.tokens_per_page) (hs : SeqShape cfg c s)
    (hlt : c < cfg.max_context_tokens)
    (h : append_step cfg pa s = some (pa1, s1)) :
    SeqShape cfg (c + 1) s1 ∧
      (c % cfg.tokens_per_page = 0 → ∃ p, page_alloc pa = some (pa1, p)) ∧
      (c % cfg.tokens_per_page ≠ 0 → pa1 = pa) := by
  obtain ⟨hcur, hslots⟩ := hs
  have hmax : ¬ cfg.max_context_tokens ≤ s.cur_tokens := by omega
  simp only [append_step, hmax, if_false] at h
  rw [hcur] at h
  have hSLgd : ∀ i,
      ((if s.slots.length ≤ c / cfg.tokens_per_page then
          reserve_slots s.slots (c / cfg.tokens_per_page + 1)
        else s.slots).getD i none)
      = s.slots.getD i none := by
    intro i
    split
    · exact reserve_slots_getD _ _ _
    · rfl
  have hSLlen : c / cfg.tokens_per_page <
      (if s.slots.length ≤ c / cfg.tokens_per_page then
          reserve_slots s.slots (c / cfg.tokens_per_page + 1)
        else s.slots).length := by
    split
    next hle =>
      have := (reserve_slots_length_ge s.slots (c / cfg.tokens_per_page + 1)).1
      omega
    next hle => omega
  by_cases hmod : c % cfg.tokens_per_page = 0
  · -- page boundary: the covering slot is empty, a fresh page is allocated
    have hnotpop : ¬ (((if s.slots.length ≤ c / cfg.tokens_per_page then
          reserve_slots s.slots (c / cfg.tokens_per_page + 1)
        else s.slots).getD (c / cfg.tokens_per_page) none).isSome = true) := by
      rw [hSLgd]
      rcases hgd : s.slots.getD (c / cfg.tokens_per_page) none with _ | p
      · simp
      · exfalso
        have h1 := (hslots (c / cfg.tokens_per_page)).1 (by rw [hgd]; rfl)
        rw [(ceil_div_succ_mod_zero htpp hmod).1] at h1
        omega
    rw [if_neg hnotpop] at h
    rcases halloc : page_alloc pa with _ | ⟨pa2, p⟩
    · rw [halloc] at h
      exact absurd h (by simp)
    · rw [halloc] at h
      have h2 := Option.some.inj h
      rw [Prod.mk.injEq] at h2
      obtain ⟨hpa2, hs1⟩ := h2
      subst hpa2
      refine ⟨?_, fun _ => ⟨p, rfl⟩, fun hne => absurd hmod hne⟩
      rw [← hs1]
      refine ⟨rfl, ?_⟩
      intro i
      show ((((if s.slots.length ≤ c / cfg.tokens_per_page then
          reserve_slots s.slots (c / cfg.tokens_per_page + 1)
        else s.slots).set (c / cfg.tokens_per_page) (some p)).getD i none).isSome
          = true) ↔ i < ceil_div (c + 1) cfg.tokens_per_page
      rw [(ceil_div_succ_mod_zero htpp hmod).2]
      by_cases hi : i = c / cfg.tokens_per_page
      · subst hi
        rw [getD_set_self _ _ _ _ hSLlen]
        simp
      · rw [getD_set_ne _ _ _ _ _ hi, hSLgd, hslots i,
          (ceil_div_succ_mod_zero htpp hmod).1]
        omega
  · -- inside a page: the covering slot is already populated
    have hlt2 : c / cfg.tokens_per_page < ceil_div c cfg.tokens_per_page := by
      rw [(ceil_div_succ_mod_ne htpp hmod).1]
      omega
    have hpop : (((if s.slots.length ≤ c / cfg.tokens_per_page then
          reserve_slots s.slots (c / cfg.tokens_per_page + 1)
        else s.slots).getD (c / cfg.tokens_per_page) none).isSome = true) := by
      rw [hSLgd]
      exact (hslots _).2 hlt2
    rw [if_pos hpop] at h
    have h2 := Option.some.inj h
    rw [Prod.mk.injEq] at h2
    obtain ⟨hpa2, hs1⟩ := h2
    subst hpa2
    refine ⟨?_, fun hz => absurd hz hmod, fun _ => rfl⟩
    rw [← hs1]
    refine ⟨rfl, ?_⟩
    intro i
    show (((if s.slots.length ≤ c / cfg.tokens_per_page then
        reserve_slots s.slots (c / cfg.tokens_per_page + 1)
      else s.slots).getD i none).isSome = true) ↔ i < ceil_div (c + 1) cfg.tokens_per_page
    rw [(ceil_div_succ_mod_ne htpp hmod).2, hSLgd]
    exact hslots i

/-- A failing `append_step` from a `SeqShape` state can only be an
out-of-pages abort: the free list was empty, at a page boundary, below
the ceiling. -/
theorem append_step_none_elim {cfg : SimConfig} {pa : PageAllocator}
    {s : PagedSeqState} {c : Nat}
    (htpp : 0 < cfg.tokens_per_page) (hs : SeqShape cfg c s)
    (h : append_step cfg pa s = none) :
    pa.free_list = [] ∧ c % cfg.tokens_per_page = 0 ∧ c < cfg.max_context_tokens := by
  obtain ⟨hcur, hslots⟩ := hs
  by_cases hmax : cfg.max_context_tokens ≤ s.cur_tokens
  · simp [append_step, hmax] at h
  · simp only [append_step, hmax, if_false] at h
    rw [hcur] at h
    have hSLgd : ∀ i,
        ((if s.slots.length ≤ c / cfg.tokens_per_page then
            reserve_slots s.slots (c / cfg.tokens_per_page + 1)
          else s.slots).getD i none)
        = s.slots.getD i none := by
      intro i
      split
      · exact reserve_slots_getD _ _ _
      · rfl
    by_cases hpop : (((if s.slots.length ≤ c / cfg.tokens_per_page then
          reserve_slots s.slots (c / cfg.tokens_per_page + 1)
        else s.slots).getD (c / cfg.tokens_per_page) none).isSome = true)
    · rw [if_pos hpop] at h
      exact absurd h (by simp)
    · rw [if_neg hpop] at h
      have hmod : c % cfg.tokens_per_page = 0 := by
        by_contra hmod
        apply hpop
        rw [hSLgd]
        apply (hslots _).2
        rw [(ceil_div_succ_mod_ne htpp hmod).1]
        omega
      rcases halloc : page_alloc pa with _ | pr
      · exact ⟨page_alloc_none_free_nil halloc, hmod, by omega⟩
      · rw [halloc] at h
        exact absurd h (by simp)

/-- `n` iterated `append_step`s (the allocator/sequence part of
`appendN`). -/
def stepN (cfg : SimConfig) : Nat → PageAllocator → PagedSeqState →
    Option (PageAllocator × PagedSeqState)
  | 0, pa, s => some (pa, s)
  | n + 1, pa, s =>
      match append_step cfg pa s with
      | none => none
      | some (pa1, s1) => stepN cfg n pa1 s1

/-- Shape after `n` successful appends from a shape-`c` state:
`cur_tokens` advances to `min (c + n) max_context_tokens` and the
populated slots track the page count. -/
theorem stepN_shape {cfg : SimConfig} (htpp : 0 < cfg.tokens_per_page) :
    ∀ (n : Nat) (pa : PageAllocator) (s : PagedSeqState) (c : Nat)
      (pa' : PageAllocator) (s' : PagedSeqState),
      SeqShape cfg c s → c ≤ cfg.max_context_tokens →
      stepN cfg n pa s = some (pa', s') →
      SeqShape cfg (min (c + n) cfg.max_context_tokens) s' := by
  intro n
  induction n with
  | zero =>
      intro pa s c pa' s' hs hc h
      have h1 : (pa, s) = (pa', s') := Option.some.inj h
      have hs' : s = s' := congrArg Prod.snd h1
      rw [Nat.add_zero, Nat.min_eq_left hc]
      exact hs' ▸ hs
  | succ n ih =>
      intro pa s c pa' s' hs hc h
      by_cases hlt : c < cfg.max_context_tokens
      · simp only [stepN] at h
        rcases hstep : append_step cfg pa s with _ | ⟨pa1, s1⟩
        · rw [hstep] at h
          exact absurd h (by simp)
        · rw [hstep] at h
          have hsh := (append_step_some_shape htpp hs hlt hstep).1
          have hres := ih pa1 s1 (c + 1) pa' s' hsh (by omega) h
          rw [show c + (n + 1) = c + 1 + n by omega]
          exact hres
      · have hstep : append_step cfg pa s = some (pa, s) := by
          unfold append_step
          rw [if_pos (by rw [hs.1]; omega)]
        simp only [stepN] at h
        rw [hstep] at h
        have hres := ih pa s c pa' s' hs hc h
        have hceq : c = cfg.max_context_tokens := by omega
        rw [hceq, Nat.min_eq_right (by omega)] at hres
        rw [hceq, Nat.min_eq_right (by omega)]
        exact hres

/-- With enough free pages, `n` appends from a shape-`c` state always
succeed (the only abort is out-of-pages). -/
theorem stepN_isSome {cfg : SimConfig} (htpp : 0 < cfg.tokens_per_page) :
    ∀ (n : Nat) (pa : PageAllocator) (s : PagedSeqState) (c : Nat),
      SeqShape cfg c s → c ≤ cfg.max_context_tokens →
      ceil_div (min (c + n) cfg.max_context_tokens) cfg.tokens_per_page
        ≤ ceil_div c cfg.tokens_per_page + free_count pa →
      (stepN cfg n pa s).isSome = true := by
  intro n
  induction n with
  | zero =>
      intro pa s c hs hc hfree
      simp [stepN]
  | succ n ih =>
      intro pa s c hs hc hfree
      by_cases hlt : c < cfg.max_context_tokens
      · rcases hstep : append_step cfg pa s with _ | ⟨pa1, s1⟩
        · exfalso
          obtain ⟨hnil, hmod, -⟩ := append_step_none_elim htpp hs hstep
          have h1 : c + 1 ≤ min (c + (n + 1)) cfg.max_context_tokens := by omega
          have h2 := ceil_div_le_ceil_div (b := cfg.tokens_per_page) h1
          have h3 : free_count pa = 0 := by
            rw [free_count, hnil]
            rfl
          have h4 : ceil_div (c + 1) cfg.tokens_per_page
              = ceil_div c cfg.tokens_per_page + 1 := by
            rw [(ceil_div_succ_mod_zero htpp hmod).2,
              (ceil_div_succ_mod_zero htpp hmod).1]
          omega
        · have hmain := append_step_some_shape htpp hs hlt hstep
          simp only [stepN]
          rw [hstep]
          show (stepN cfg n pa1 s1).isSome = true
          apply ih pa1 s1 (c + 1) hmain.1 (by omega)
          rw [show c + (n + 1) = c + 1 + n by omega] at hfree
          by_cases hmod : c % cfg.tokens_per_page = 0
          · obtain ⟨p, halloc⟩ := hmain.2.1 hmod
            obtain ⟨hfl, -, -, -⟩ := page_alloc_some_elim halloc
            have hfc : free_count pa = free_count pa1 + 1 := by
              rw [free_count, free_count, hfl, List.length_cons]
            have hceil : ceil_div (c + 1) cfg.tokens_per_page
                = ceil_div c cfg.tokens_per_page + 1 := by
              rw [(ceil_div_succ_mod_zero htpp hmod).2,
                (ceil_div_succ_mod_zero htpp hmod).1]
            omega
          · have hpa := hmain.2.2 hmod
            subst hpa
            have hceil := (ceil_div_succ_mod_ne htpp hmod).2
            omega
      · have hstep : append_step cfg pa s = some (pa, s) := by
          unfold append_step
          rw [if_pos (by rw [hs.1]; omega)]
        simp only [stepN]
        rw [hstep]
        show (stepN cfg n pa s).isSome = true
        apply ih pa s c hs hc
        have hceq : c = cfg.max_context_tokens := by omega
        rw [hceq, Nat.min_eq_right (by omega)] at hfree ⊢
        exact hfree

/-! ## Lifting per-sequence appends to the backend -/

theorem getElem?_eq_some_lt {α : Type _} {l : List α} {i : Nat} {a : α}
    (h : l[i]? = some a) : i < l.length := by
  by_contra hc
  rw [List.getElem?_eq_none (by omega)] at h
  exact absurd h (by simp)

theorem set_getElem?_self {α : Type _} {l : List α} {i : Nat} {a : α}
    (h : l[i]? = some a) : l.set i a = l := by
  have hlt := getElem?_eq_some_lt h
  apply List.ext_getElem?
  intro j
  by_cases hj : j = i
  · subst hj
    rw [List.getElem?_set_eq_of_lt a hlt, h]
  · rw [List.getElem?_set_ne (Ne.symm hj)]

theorem paged_append_token_eq {impl : PagedKV} {id : Nat} {s : PagedSeqState}
    (hid : impl.seqs[id]? = some s) :
    paged_append_token impl id =
      (append_step impl.cfg impl.alloc s).map
        (fun r => { impl with alloc := r.1, seqs := impl.seqs.set id r.2 }) := by
  unfold paged_append_token
  rw [hid]
  show (match append_step impl.cfg impl.alloc s with
        | none => none
        | some (pa, s1) =>
            some { impl with alloc := pa, seqs := impl.seqs.set id s1 })
      = (append_step impl.cfg impl.alloc s).map
          (fun r => { impl with alloc := r.1, seqs := impl.seqs.set id r.2 })
  rcases append_step impl.cfg impl.alloc s with _ | ⟨pa, s1⟩
  · rfl
  · rfl

theorem appendN_eq_stepN {impl : PagedKV} {id : Nat} {s : PagedSeqState} (n : Nat)
    (hid : impl.seqs[id]? = some s) :
    appendN impl id n =
      (stepN impl.cfg n impl.alloc s).map
        (fun r => { impl with alloc := r.1, seqs := impl.seqs.set id r.2 }) := by
  induction n generalizing impl s with
  | zero =>
      show some impl = ((some (impl.alloc, s)).map
        (fun r => { impl with alloc := r.1, seqs := impl.seqs.set id r.2 }))
      simp only [Option.map_some']
      rw [set_getElem?_self hid]
  | succ n ih =>
      have hlt : id < impl.seqs.length := getElem?_eq_some_lt hid
      simp only [appendN]
      rw [paged_append_token_eq hid]
      rcases hstep : append_step impl.cfg impl.alloc s with _ | ⟨pa1, s1⟩
      · show (none : Option PagedKV) =
          (stepN impl.cfg (n + 1) impl.alloc s).map _
        simp only [stepN]
        rw [hstep]
        rfl
      · have hid1 : ({ impl with alloc := pa1, seqs := impl.seqs.set id s1 }
            : PagedKV).seqs[id]? = some s1 := by
          show (impl.seqs.set id s1)[id]? = some s1
          exact List.getElem?_set_eq_of_lt s1 hlt
        show appendN { impl with alloc := pa1, seqs := impl.seqs.set id s1 } id n
            = (stepN impl.cfg (n + 1) impl.alloc s).map _
        simp only [stepN]
        rw [hstep, ih hid1]
        show (stepN impl.cfg n pa1 s1).map _ = (stepN impl.cfg n pa1 s1).map _
        rcases stepN impl.cfg n pa1 s1 with _ | r
        · rfl
        · simp only [Option.map_some', List.set_set]

/-- **C5** (confirmed).  Paged append clamp: once a sequence's
`cur_tokens` has reached `max_context_tokens`, `append_token` returns
the backend state entirely unchanged; consequently a sequence
initialized with no shared prefix and asked to append
`max_context_tokens + 100` tokens (with enough free pages for the
allocations, which is what the spec's scenario presumes) ends with
`cur_tokens = max_context_tokens` and exactly
`ceil(max_context_tokens / tokens_per_page)` populated slots. -/
theorem C5_paged_append_clamp (impl : PagedKV) (work : SequenceWork)
    (htpp : 0 < impl.cfg.tokens_per_page)
    (hwork : work.shared_prompt_id < 0)
    (hfree : ceil_div impl.cfg.max_context_tokens impl.cfg.tokens_per_page
      ≤ free_count impl.alloc) :
    (∀ id s, impl.seqs[id]? = some s →
        impl.cfg.max_context_tokens ≤ s.cur_tokens →
        paged_append_token impl id = some impl) ∧
    (∀ st1 id, paged_init_sequence impl work = some (st1, id) →
        ∃ st2, appendN st1 id (impl.cfg.max_context_tokens + 100) = some st2 ∧
          ∀ s2, st2.seqs[id]? = some s2 →
            s2.cur_tokens = impl.cfg.max_context_tokens ∧
            populated_count s2 =
              ceil_div impl.cfg.max_context_tokens impl.cfg.tokens_per_page) := by
  constructor
  · intro id s hid hcl
    rw [paged_append_token_eq hid]
    have hstep : append_step impl.cfg impl.alloc s = some (impl.alloc, s) := by
      unfold append_step
      rw [if_pos hcl]
    rw [hstep]
    simp only [Option.map_some']
    rw [set_getElem?_self hid]
  · intro st1 id hinit
    have hni : ¬ (0 ≤ work.shared_prompt_id) := by omega
    have hdecl : declared_shared_tokens impl work = 0 := by
      unfold declared_shared_tokens
      rw [if_neg hni]
    have hcore : paged_init_core impl work
        = some (impl.alloc, impl.groups,
            { slots := [], cur_tokens := 0, shared_prefix_tokens := 0 }) := by
      unfold paged_init_core
      rw [if_neg (by rw [hdecl]; simp)]
    unfold paged_init_sequence at hinit
    rw [hcore] at hinit
    have h2 := Option.some.inj hinit
    rw [Prod.mk.injEq] at h2
    obtain ⟨hst1, hid⟩ := h2
    subst hid
    subst hst1
    have hgetid : ((impl.seqs ++
        [{ slots := [], cur_tokens := 0, shared_prefix_tokens := 0 }]
          : List PagedSeqState))[impl.seqs.length]?
        = some { slots := [], cur_tokens := 0, shared_prefix_tokens := 0 } :=
      List.getElem?_concat_length _ _
    have shape0 : SeqShape impl.cfg 0
        { slots := [], cur_tokens := 0, shared_prefix_tokens := 0 } := by
      refine ⟨rfl, ?_⟩
      intro i
      rw [ceil_div_zero_left]
      simp [List.getD]
    have hminmax : min (0 + (impl.cfg.max_context_tokens + 100))
        impl.cfg.max_context_tokens = impl.cfg.max_context_tokens := by
      omega
    have hsome := stepN_isSome htpp (impl.cfg.max_context_tokens + 100)
      impl.alloc _ 0 shape0 (by omega)
      (by rw [hminmax, ceil_div_zero_left]; omega)
    rcases hrun : stepN impl.cfg (impl.cfg.max_context_tokens + 100) impl.alloc
        { slots := [], cur_tokens := 0, shared_prefix_tokens := 0 }
      with _ | ⟨pa', s'⟩
    · rw [hrun] at hsome
      exact absurd hsome (by simp)
    · have hshape := stepN_shape htpp (impl.cfg.max_context_tokens + 100)
        impl.alloc _ 0 pa' s' shape0 (by omega) hrun
      rw [hminmax] at hshape
      refine Exists.intro
        ({ cfg := impl.cfg
           alloc := pa'
           seqs := ((impl.seqs ++
             [{ slots := [], cur_tokens := 0, shared_prefix_tokens := 0 }]
               : List PagedSeqState).set impl.seqs.length s')
           groups := impl.groups } : PagedKV) ⟨?_, ?_⟩
      · rw [appendN_eq_stepN (impl.cfg.max_context_tokens + 100) hgetid]
        rw [show (({ impl with seqs := impl.seqs ++
          [{ slots := [], cur_tokens := 0, shared_prefix_tokens := 0 }] }
            : PagedKV)).cfg = impl.cfg from rfl]
        rw [hrun]
        rfl
      · intro s2 hs2
        have hlen : impl.seqs.length < (impl.seqs ++
            [{ slots := [], cur_tokens := 0, shared_prefix_tokens := 0 }]
              : List PagedSeqState).length := by
          rw [List.length_append]
          simp
        have hset : ((impl.seqs ++
            [{ slots := [], cur_tokens := 0, shared_prefix_tokens := 0 }]
              : List PagedSeqState).set impl.seqs.length s')[impl.seqs.length]?
            = some s' :=
          List.getElem?_set_eq_of_lt s' hlen
        have hs2' : ((impl.seqs ++
            [{ slots := [], cur_tokens := 0, shared_prefix_tokens := 0 }]
              : List PagedSeqState).set impl.seqs.length s')[impl.seqs.length]?
            = some s2 := hs2
        rw [hset] at hs2'
        have hs2'' : s' = s2 := Option.some.inj hs2'
        subst hs2''
        exact ⟨hshape.1, countP_isSome_of_pattern _ _ hshape.2⟩

def cfgW5 : SimConfig :=
  { num_layers := 1, num_heads := 1, head_dim := 1, max_context_tokens := 4
    tokens_per_page := 2, arena_bytes := 48, num_sequences := 1, num_groups := 0
    max_prompt_extra := 0, min_gen_tokens := 0, max_gen_tokens := 0 }

def workW5 : SequenceWork :=
  { prompt_tokens := 2, gen_tokens := 2, shared_prompt_tokens := 0,
    shared_prompt_id := -1 }

def st1W5 : PagedKV :=
  { cfg := cfgW5
    alloc := { page_bytes := 8, num_pages := 6, pages := [0, 0, 0, 0, 0, 0],
               free_list := [5, 4, 3, 2, 1, 0] }
    seqs := [{ slots := [], cur_tokens := 0, shared_prefix_tokens := 0 }]
    groups := [] }

theorem C5_paged_append_clamp_witness :
    (appendN st1W5 0
      ((create_paged_backend cfgW5).cfg.max_context_tokens + 100)).isSome = true := by
  obtain ⟨st2, h1, h2⟩ := (C5_paged_append_clamp (create_paged_backend cfgW5) workW5
    (by decide) (by decide) (by decide)).2 st1W5 0 (by decide)
  rw [h1]
  rfl

/-! ## Backend operation traces -/

inductive KVOp where
  | op_init : SequenceWork → KVOp
  | op_append : Nat → KVOp
  | op_finish : Nat → KVOp
deriving Repr, DecidableEq

def runKVOp (impl : PagedKV) : KVOp → Option PagedKV
  | .op_init w => (paged_init_sequence impl w).map Prod.fst
  | .op_append id => paged_append_token impl id
  | .op_finish id => paged_finish_sequence impl id

def runKVOps (impl : PagedKV) : List KVOp → Option PagedKV
  | [] => some impl
  | op :: ops =>
      match runKVOp impl op with
      | none => none
      | some impl1 => runKVOps impl1 ops

/-- Eliminator for a successful `paged_init_sequence` in terms of its
body. -/
theorem paged_init_sequence_elim {impl impl1 : PagedKV} {w : SequenceWork} {id : Nat}
    (h : paged_init_sequence impl w = some (impl1, id)) :
    ∃ r, paged_init_core impl w = some r ∧
      impl1.cfg = impl.cfg ∧ impl1.alloc = r.1 ∧ impl1.groups = r.2.1 ∧
      impl1.seqs = impl.seqs ++ [r.2.2] ∧ id = impl.seqs.length := by
  unfold paged_init_sequence at h
  rcases hc : paged_init_core impl w with _ | r
  · rw [hc] at h
    exact absurd h (by simp)
  · rw [hc] at h
    have h2 := Option.some.inj h
    rw [Prod.mk.injEq] at h2
    obtain ⟨hst, hid2⟩ := h2
    refine ⟨r, rfl, ?_, ?_, ?_, ?_, hid2.symm⟩ <;> rw [← hst]

/-- Every fresh sequence created by the init body starts with
`cur_tokens = 0`. -/
theorem paged_init_core_cur {impl : PagedKV} {w : SequenceWork}
    {r : PageAllocator × List SharedPref × PagedSeqState}
    (h : paged_init_core impl w = some r) : r.2.2.cur_tokens = 0 := by
  simp only [paged_init_core] at h
  split at h
  · split at h
    · have h2 := Option.some.inj h
      rw [← h2]
    · rcases hb : build_shared_pref impl.cfg impl.alloc
          (declared_shared_tokens impl w) with _ | ⟨pa1, pref⟩
      · rw [hb] at h
        exact absurd h (by simp)
      · rw [hb] at h
        have h2 := Option.some.inj h
        rw [← h2]
  · have h2 := Option.some.inj h
    rw [← h2]

/-- Structural facts about a successful `paged_init_sequence`: the
configuration is untouched, the returned id is the old sequence count,
and exactly one fresh sequence (with `cur_tokens = 0`) is appended. -/
theorem paged_init_sequence_seqs {impl impl1 : PagedKV} {w : SequenceWork} {id : Nat}
    (h : paged_init_sequence impl w = some (impl1, id)) :
    impl1.cfg = impl.cfg ∧ id = impl.seqs.length ∧
      ∃ snew, impl1.seqs = impl.seqs ++ [snew] ∧ snew.cur_tokens = 0 := by
  obtain ⟨r, hcore, hcfg, -, -, hseqs, hid⟩ := paged_init_sequence_elim h
  exact ⟨hcfg, hid, r.2.2, hseqs, paged_init_core_cur hcore⟩

/-- Eliminator for a successful `paged_finish_sequence` on a valid id. -/
theorem paged_finish_sequence_elim {impl impl1 : PagedKV} {id : Nat}
    {s : PagedSeqState}
    (hid : impl.seqs[id]? = some s)
    (h : paged_finish_sequence impl id = some impl1) :
    ∃ pa, dec_slots impl.alloc s.slots = some pa ∧
      impl1.cfg = impl.cfg ∧ impl1.groups = impl.groups ∧ impl1.alloc = pa ∧
      impl1.seqs = impl.seqs.set id
        { slots := List.replicate s.slots.length none, cur_tokens := 0,
          shared_prefix_tokens := 0 } := by
  unfold paged_finish_sequence at h
  rw [hid] at h
  have h' : (match dec_slots impl.alloc s.slots with
      | none => none
      | some pa =>
          some { impl with
                  alloc := pa
                  seqs := impl.seqs.set id
                    { slots := List.replicate s.slots.length none,
                      cur_tokens := 0, shared_prefix_tokens := 0 } })
      = some impl1 := h
  rcases hdec : dec_slots impl.alloc s.slots with _ | pa
  · rw [hdec] at h'
    exact absurd h' (by simp)
  · rw [hdec] at h'
    have heq := Option.some.inj h'
    refine ⟨pa, rfl, ?_, ?_, ?_, ?_⟩ <;> rw [← heq]

/-! ## Slot coverage (C6) -/

def SeqCovered (tpp : Nat) (s : PagedSeqState) : Prop :=
  ∀ t, t < s.cur_tokens → ((s.slots.getD (t / tpp) none).isSome = true)

def Covered (impl : PagedKV) : Prop :=
  ∀ s ∈ impl.seqs, SeqCovered impl.cfg.tokens_per_page s

theorem seqCovered_of_cur_zero {tpp : Nat} {s : PagedSeqState}
    (h : s.cur_tokens = 0) : SeqCovered tpp s := by
  intro t ht
  omega

/-- A successful `append_step` preserves slot coverage: the slot
covering the appended token is populated before `cur_tokens` is
advanced past it. -/
theorem append_step_covered {cfg : SimConfig} {pa pa1 : PageAllocator}
    {s s1 : PagedSeqState}
    (h : append_step cfg pa s = some (pa1, s1))
    (hc : SeqCovered cfg.tokens_per_page s) :
    SeqCovered cfg.tokens_per_page s1 := by
  by_cases hmax : cfg.max_context_tokens ≤ s.cur_tokens
  · unfold append_step at h
    rw [if_pos hmax] at h
    have h2 := Option.some.inj h
    have hs1 : s = s1 := congrArg Prod.snd h2
    exact hs1 ▸ hc
  · simp only [append_step, hmax, if_false] at h
    have hSLgd : ∀ i,
        ((if s.slots.length ≤ s.cur_tokens / cfg.tokens_per_page then
            reserve_slots s.slots (s.cur_tokens / cfg.tokens_per_page + 1)
          else s.slots).getD i none)
        = s.slots.getD i none := by
      intro i
      split
      · exact reserve_slots_getD _ _ _
      · rfl
    have hSLlen : s.cur_tokens / cfg.tokens_per_page <
        (if s.slots.length ≤ s.cur_tokens / cfg.tokens_per_page then
            reserve_slots s.slots (s.cur_tokens / cfg.tokens_per_page + 1)
          else s.slots).length := by
      split
      next hle =>
        have := (reserve_slots_length_ge s.slots
          (s.cur_tokens / cfg.tokens_per_page + 1)).1
        omega
      next hle => omega
    by_cases hpop : (((if s.slots.length ≤ s.cur_tokens / cfg.tokens_per_page then
          reserve_slots s.slots (s.cur_tokens / cfg.tokens_per_page + 1)
        else s.slots).getD (s.cur_tokens / cfg.tokens_per_page) none).isSome = true)
    · rw [if_pos hpop] at h
      have h2 := Option.some.inj h
      rw [Prod.mk.injEq] at h2
      obtain ⟨-, hs1⟩ := h2
      rw [← hs1]
      intro t ht
      show (((if s.slots.length ≤ s.cur_tokens / cfg.tokens_per_page then
          reserve_slots s.slots (s.cur_tokens / cfg.tokens_per_page + 1)
        else s.slots).getD (t / cfg.tokens_per_page) none).isSome = true)
      rw [hSLgd]
      have ht' : t < s.cur_tokens + 1 := ht
      rcases Nat.lt_or_ge t s.cur_tokens with h1 | h1
      · exact hc t h1
      · have : t = s.cur_tokens := by omega
        subst this
        rw [← hSLgd]
        exact hpop
    · rw [if_neg hpop] at h
      rcases halloc : page_alloc pa with _ | ⟨pa2, p⟩
      · rw [halloc] at h
        exact absurd h (by simp)
      · rw [halloc] at h
        have h2 := Option.some.inj h
        rw [Prod.mk.injEq] at h2
        obtain ⟨-, hs1⟩ := h2
        rw [← hs1]
        intro t ht
        show ((((if s.slots.length ≤ s.cur_tokens / cfg.tokens_per_page then
            reserve_slots s.slots (s.cur_tokens / cfg.tokens_per_page + 1)
          else s.slots).set (s.cur_tokens / cfg.tokens_per_page)
            (some p)).getD (t / cfg.tokens_per_page) none).isSome = true)
        by_cases hi : t / cfg.tokens_per_page = s.cur_tokens / cfg.tokens_per_page
        · rw [hi, getD_set_self _ _ _ _ hSLlen]
          rfl
        · rw [getD_set_ne _ _ _ _ _ hi, hSLgd]
          have ht' : t < s.cur_tokens + 1 := ht
          rcases Nat.lt_or_ge t s.cur_tokens with h1 | h1
          · exact hc t h1
          · exfalso
            have : t = s.cur_tokens := by omega
            subst this
            exact hi rfl

theorem runKVOp_covered {impl impl1 : PagedKV} {op : KVOp}
    (h : runKVOp impl op = some impl1) (hc : Covered impl) :
    impl1.cfg = impl.cfg ∧ Covered impl1 := by
  cases op with
  | op_init w =>
      simp only [runKVOp] at h
      rcases hinit : paged_init_sequence impl w with _ | ⟨st1, id⟩
      · rw [hinit] at h
        exact absurd h (by simp)
      · rw [hinit] at h
        have hst1 : st1 = impl1 := Option.some.inj h
        subst hst1
        obtain ⟨hcfg, -, snew, hseqs, hcur⟩ := paged_init_sequence_seqs hinit
        refine ⟨hcfg, ?_⟩
        intro s hs
        rw [hseqs] at hs
        rw [hcfg]
        rcases List.mem_append.1 hs with h1 | h1
        · exact hc s h1
        · have : s = snew := by simpa using h1
          subst this
          exact seqCovered_of_cur_zero hcur
  | op_append id =>
      simp only [runKVOp] at h
      rcases hid : impl.seqs[id]? with _ | s
      · unfold paged_append_token at h
        rw [hid] at h
        have : impl = impl1 := Option.some.inj h
        subst this
        exact ⟨rfl, hc⟩
      · rw [paged_append_token_eq hid] at h
        rcases hstep : append_step impl.cfg impl.alloc s with _ | ⟨pa1, s1⟩
        · rw [hstep] at h
          exact absurd h (by simp)
        · rw [hstep] at h
          simp only [Option.map_some'] at h
          have himpl1 := Option.some.inj h
          rw [← himpl1]
          refine ⟨rfl, ?_⟩
          intro t ht
          rcases List.mem_or_eq_of_mem_set ht with h1 | h1
          · exact hc t h1
          · subst h1
            exact append_step_covered hstep (hc s (List.getElem?_mem hid))
  | op_finish id =>
      simp only [runKVOp] at h
      rcases hid : impl.seqs[id]? with _ | s
      · unfold paged_finish_sequence at h
        rw [hid] at h
        have : impl = impl1 := Option.some.inj h
        subst this
        exact ⟨rfl, hc⟩
      · obtain ⟨pa, -, hcfg, -, -, hseqs⟩ := paged_finish_sequence_elim hid h
        refine ⟨hcfg, ?_⟩
        intro t ht
        rw [hseqs] at ht
        rw [hcfg]
        rcases List.mem_or_eq_of_mem_set ht with h1 | h1
        · exact hc t h1
        · subst h1
          exact seqCovered_of_cur_zero rfl

theorem runKVOps_covered {impl impl' : PagedKV} {ops : List KVOp}
    (h : runKVOps impl ops = some impl') (hc : Covered impl) :
    impl'.cfg = impl.cfg ∧ Covered impl' := by
  induction ops generalizing impl with
  | nil =>
      have : impl = impl' := Option.some.inj h
      subst this
      exact ⟨rfl, hc⟩
  | cons op ops ih =>
      simp only [runKVOps] at h
      rcases hop : runKVOp impl op with _ | impl1
      · rw [hop] at h
        exact absurd h (by simp)
      · rw [hop] at h
        obtain ⟨hcfg1, hc1⟩ := runKVOp_covered hop hc
        obtain ⟨hcfg2, hc2⟩ := ih h hc1
        exact ⟨hcfg2.trans hcfg1, hc2⟩

theorem le_countP_isSome_of_lt_pattern {α : Type _} :
    ∀ (l : List (Option α)) (m : Nat),
      (∀ i, i < m → ((l.getD i none).isSome = true)) →
      m ≤ l.countP Option.isSome := by
  intro l
  induction l with
  | nil =>
      intro m h
      rcases Nat.eq_zero_or_pos m with hm | hm
      · simp [hm]
      · have := h 0 hm
        simp [List.getD] at this
  | cons a t ih =>
      intro m h
      rcases m with _ | k
      · omega
      · have ha : a.isSome = true := by
          have := h 0 (by omega)
          rwa [List.getD_cons_zero] at this
        have hk : k ≤ t.countP Option.isSome := by
          apply ih
          intro i hi
          have := h (i + 1) (by omega)
          rwa [List.getD_cons_succ] at this
        rw [List.countP_cons, ha]
        simp only [if_true]
        omega

/-- **C6** (confirmed).  Slot coverage invariant: in every state
reachable by init/append/finish operations from a fresh paged backend,
every sequence satisfies: each token index `t < cur_tokens` has its
covering slot `t / tokens_per_page` populated, and
`cur_tokens ≤ populated_slots × tokens_per_page` (the fresh page is
allocated before `cur_tokens` is incremented past the page
boundary). -/
theorem C6_slot_coverage (cfg : SimConfig) (ops : List KVOp) (st : PagedKV)
    (htpp : 0 < cfg.tokens_per_page)
    (hrun : runKVOps (create_paged_backend cfg) ops = some st) :
    ∀ s ∈ st.seqs,
      (∀ t, t < s.cur_tokens →
        (slotVal s (t / cfg.tokens_per_page)).isSome = true) ∧
      s.cur_tokens ≤ populated_count s * cfg.tokens_per_page := by
  have hc0 : Covered (create_paged_backend cfg) := by
    intro s hs
    simp [create_paged_backend] at hs
  obtain ⟨hcfg, hcov⟩ := runKVOps_covered hrun hc0
  intro s hs
  have hcovs := hcov s hs
  rw [hcfg] at hcovs
  have hcov' : ∀ t, t < s.cur_tokens →
      (slotVal s (t / cfg.tokens_per_page)).isSome = true := by
    intro t ht
    exact hcovs t ht
  refine ⟨hcov', ?_⟩
  have hpages : ∀ i, i < ceil_div s.cur_tokens cfg.tokens_per_page →
      ((s.slots.getD i none).isSome = true) := by
    intro i hi
    have hmul : i * cfg.tokens_per_page < s.cur_tokens :=
      (lt_ceil_div_iff htpp).1 hi
    have := hcov' (i * cfg.tokens_per_page) hmul
    rwa [slotVal, Nat.mul_div_cancel _ htpp] at this
  have hcount := le_countP_isSome_of_lt_pattern s.slots
    (ceil_div s.cur_tokens cfg.tokens_per_page) hpages
  have hle := le_ceil_div_mul s.cur_tokens htpp
  have hmul := Nat.mul_le_mul_right cfg.tokens_per_page hcount
  rw [populated_count]
  omega

def cfgW6 : SimConfig :=
  { num_layers := 1, num_heads := 1, head_dim := 1, max_context_tokens := 4
    tokens_per_page := 2, arena_bytes := 32, num_sequences := 1, num_groups := 0
    max_prompt_extra := 0, min_gen_tokens := 0, max_gen_tokens := 0 }

def opsW6 : List KVOp :=
  [.op_init { prompt_tokens := 3, gen_tokens := 0, shared_prompt_tokens := 0,
              shared_prompt_id := -1 },
   .op_append 0, .op_append 0, .op_append 0]

def stW6 : PagedKV :=
  { cfg := cfgW6
    alloc := { page_bytes := 8, num_pages := 4, pages := [0, 0, 1, 1],
               free_list := [1, 0] }
    seqs := [{ slots := [some 3, some 2, none, none], cur_tokens := 3,
               shared_prefix_tokens := 0 }]
    groups := [] }

def sW6 : PagedSeqState :=
  { slots := [some 3, some 2, none, none], cur_tokens := 3,
    shared_prefix_tokens := 0 }

theorem C6_slot_coverage_witness :
    (slotVal sW6 (2 / cfgW6.tokens_per_page)).isSome = true ∧
      sW6.cur_tokens ≤ populated_count sW6 * cfgW6.tokens_per_page := by
  have h := C6_slot_coverage cfgW6 opsW6 stW6 (by decide) (by decide)
  have hmem : sW6 ∈ stW6.seqs := by decide
  exact ⟨(h sW6 hmem).1 2 (by decide), (h sW6 hmem).2⟩

/-! ## The attach loop (C7) -/

/-- Full characterization of the attach loop: the free list and
geometry are untouched, every page's refcount gains one per occurrence
in the attached list, and slots `i .. i + pages.length - 1` receive the
page handles in order (slots below `i` are untouched). -/
theorem attach_go_spec :
    ∀ (pages : List PageId) (pa : PageAllocator) (slots : List (Option PageId))
      (i : Nat),
      (∀ p ∈ pages, p < pa.pages.length) →
      i + pages.length ≤ slots.length →
      (attach_go pa slots i pages).1.free_list = pa.free_list ∧
      (attach_go pa slots i pages).1.num_pages = pa.num_pages ∧
      (attach_go pa slots i pages).1.page_bytes = pa.page_bytes ∧
      (attach_go pa slots i pages).1.pages.length = pa.pages.length ∧
      (∀ q, refcount (attach_go pa slots i pages).1 q
        = refcount pa q + pages.count q) ∧
      (attach_go pa slots i pages).2.length = slots.length ∧
      (∀ j, j < i →
        (attach_go pa slots i pages).2.getD j none = slots.getD j none) ∧
      (∀ k, k < pages.length →
        (attach_go pa slots i pages).2.getD (i + k) none
          = some (pages.getD k 0)) := by
  intro pages
  induction pages with
  | nil =>
      intro pa slots i hvalid hlen
      refine ⟨rfl, rfl, rfl, rfl, ?_, rfl, fun j hj => rfl,
        fun k hk => absurd hk (by simp)⟩
      intro q
      simp [attach_go]
  | cons p ps ih =>
      intro pa slots i hvalid hlen
      have hplen : p < pa.pages.length := hvalid p (List.mem_cons_self p ps)
      have hvalid' : ∀ q ∈ ps, q < (page_inc_ref pa p).pages.length := by
        intro q hq
        have : (page_inc_ref pa p).pages.length = pa.pages.length :=
          List.length_set ..
        rw [this]
        exact hvalid q (List.mem_cons_of_mem p hq)
      have hlencons : (p :: ps).length = ps.length + 1 := List.length_cons p ps
      have hlen' : (i + 1) + ps.length ≤ (slots.set i (some p)).length := by
        rw [List.length_set]
        omega
      obtain ⟨h1, h2, h3, h4, h5, h6, h7, h8⟩ :=
        ih (page_inc_ref pa p) (slots.set i (some p)) (i + 1) hvalid' hlen'
      have hilt : i < slots.length := by omega
      simp only [attach_go]
      refine ⟨h1, h2, h3, ?_, ?_, ?_, ?_, ?_⟩
      · rw [h4]
        exact List.length_set ..
      · intro q
        rw [h5 q]
        by_cases hq : q = p
        · subst hq
          have hinc : refcount (page_inc_ref pa q) q = refcount pa q + 1 := by
            simp only [refcount, page_inc_ref]
            exact getD_set_self _ _ _ _ hplen
          rw [hinc, List.count_cons_self]
          omega
        · have hinc : refcount (page_inc_ref pa p) q = refcount pa q := by
            simp only [refcount, page_inc_ref]
            exact getD_set_ne _ _ _ _ _ hq
          rw [hinc, List.count_cons_of_ne hq]
      · rw [h6]
        exact List.length_set ..
      · intro j hj
        rw [h7 j (by omega)]
        exact getD_set_ne _ _ _ _ _ (by omega)
      · intro k hk
        rcases k with _ | k2
        · have h7i := h7 i (by omega)
          rw [getD_set_self _ _ _ _ hilt] at h7i
          simpa using h7i
        · have hr := h8 k2 (by omega)
          have hidx : i + (k2 + 1) = i + 1 + k2 := by omega
          rw [hidx, hr, List.getD_cons_succ]

/-- **C7** (confirmed).  Divergence adoption: when a sequence joins a
group whose entry is already built and whose (page-aligned) declared
shared token count differs from the entry's prefix length, the
sequence attaches exactly the entry's existing pages — incrementing
each page's refcount by one and writing the entry's handles into its
leading slots in order — its `shared_prefix_tokens` becomes the
entry's value (not the declared one), and the group table, the free
list and every other page are unchanged.  (The nodup/valid-handle
hypotheses hold for any state reachable from `create`, where group
pages are distinct live pages.) -/
theorem C7_divergence_adoption (impl : PagedKV) (work : SequenceWork)
    (pref0 : SharedPref)
    (hdecl : 0 < declared_shared_tokens impl work)
    (hgl : 0 < impl.groups.length)
    (hpref : impl.groups.getD (group_id impl work) default = pref0)
    (hbuilt : pref0.built = true)
    (hdiff : pref0.pref_tokens ≠ declared_shared_tokens impl work)
    (hvalid : ∀ p ∈ pref0.pages, p < impl.alloc.pages.length)
    (hnodup : pref0.pages.Nodup) :
    ∃ impl1, paged_init_sequence impl work = some (impl1, impl.seqs.length) ∧
      impl1.groups = impl.groups ∧
      impl1.alloc.free_list = impl.alloc.free_list ∧
      (∀ p ∈ pref0.pages, refcount impl1.alloc p = refcount impl.alloc p + 1) ∧
      (∀ q, q ∉ pref0.pages → refcount impl1.alloc q = refcount impl.alloc q) ∧
      ∃ snew, impl1.seqs = impl.seqs ++ [snew] ∧
        snew.shared_prefix_tokens = pref0.pref_tokens ∧
        ∀ k, k < pref0.pages.length →
          slotVal snew k = some (pref0.pages.getD k 0) := by
  have hcore : paged_init_core impl work = some
      ((attach_go impl.alloc (reserve_slots [] pref0.pages.length) 0 pref0.pages).1,
       impl.groups,
       { slots := (attach_go impl.alloc
            (reserve_slots [] pref0.pages.length) 0 pref0.pages).2,
         cur_tokens := 0,
         shared_prefix_tokens := pref0.pref_tokens }) := by
    simp only [paged_init_core]
    rw [if_pos (⟨hdecl, hgl⟩ : _ ∧ _), hpref, if_pos hbuilt, if_pos hdiff]
  have hlen0 : 0 + pref0.pages.length ≤ (reserve_slots [] pref0.pages.length).length := by
    have := (reserve_slots_length_ge [] pref0.pages.length).1
    omega
  obtain ⟨h1, h2, h3, h4, h5, h6, h7, h8⟩ :=
    attach_go_spec pref0.pages impl.alloc (reserve_slots [] pref0.pages.length)
      0 hvalid hlen0
  refine ⟨({ impl with
      alloc := (attach_go impl.alloc
        (reserve_slots [] pref0.pages.length) 0 pref0.pages).1
      groups := impl.groups
      seqs := impl.seqs ++
        [{ slots := (attach_go impl.alloc
             (reserve_slots [] pref0.pages.length) 0 pref0.pages).2,
           cur_tokens := 0,
           shared_prefix_tokens := pref0.pref_tokens }] } : PagedKV),
    ?_, rfl, h1, ?_, ?_,
    ⟨{ slots := (attach_go impl.alloc
         (reserve_slots [] pref0.pages.length) 0 pref0.pages).2,
       cur_tokens := 0, shared_prefix_tokens := pref0.pref_tokens },
     rfl, rfl, ?_⟩⟩
  · unfold paged_init_sequence
    rw [hcore]
  · intro p hp
    rw [h5 p]
    rw [List.count_eq_one_of_mem hnodup hp]
  · intro q hq
    rw [h5 q, List.count_eq_zero.2 hq, Nat.add_zero]
  · intro k hk
    have hgd := h8 k hk
    rw [Nat.zero_add] at hgd
    exact hgd

def cfgW7 : SimConfig :=
  { num_layers := 1, num_heads := 1, head_dim := 1, max_context_tokens := 8
    tokens_per_page := 2, arena_bytes := 48, num_sequences := 2, num_groups := 1
    max_prompt_extra := 0, min_gen_tokens := 0, max_gen_tokens := 0 }

def implW7 : PagedKV :=
  { cfg := cfgW7
    alloc := { page_bytes := 8, num_pages := 6, pages := [0, 0, 0, 0, 0, 1],
               free_list := [4, 3, 2, 1, 0] }
    seqs := []
    groups := [{ pages := [5], pref_tokens := 2, built := true }] }

def workW7 : SequenceWork :=
  { prompt_tokens := 4, gen_tokens := 0, shared_prompt_tokens := 4,
    shared_prompt_id := 0 }

def prefW7 : SharedPref :=
  { pages := [5], pref_tokens := 2, built := true }

theorem C7_divergence_adoption_witness :
    (paged_init_sequence implW7 workW7).isSome = true ∧
      declared_shared_tokens implW7 workW7 = 4 ∧ prefW7.pref_tokens = 2 := by
  obtain ⟨impl1, hinit, -, -, -, -, -⟩ :=
    C7_divergence_adoption implW7 workW7 prefW7 (by decide) (by decide) (by decide)
      (by decide) (by decide) (by decide) (by decide)
  refine ⟨?_, by decide, by decide⟩
  rw [hinit]
  rfl

/-! ## Page-occurrence counting

Helpers relating slot contents, group tables and refcounts, used for
the accounting invariant behind C8 and C9. -/

/-- Writing `some p` into an empty slot adds one occurrence of `p` and
leaves every other page's occurrence count unchanged. -/
theorem count_set_some_of_none :
    ∀ (l : List (Option PageId)) (i : Nat) (p q : PageId),
      i < l.length → l.getD i none = none →
      (l.set i (some p)).count (some q)
        = l.count (some q) + (if p = q then 1 else 0) := by
  intro l
  induction l with
  | nil =>
      intro i p q hi _
      simp at hi
  | cons a t ih =>
      intro i p q hi hnone
      rcases i with _ | i2
      · rw [List.getD_cons_zero] at hnone
        subst hnone
        show (some p :: t).count (some q) = (none :: t).count (some q) + _
        by_cases hpq : p = q
        · subst hpq
          rw [List.count_cons_self,
            List.count_cons_of_ne (fun hc => Option.noConfusion hc), if_pos rfl]
        · rw [List.count_cons_of_ne
              (fun hc => hpq (Option.some.inj hc).symm),
            List.count_cons_of_ne (fun hc => Option.noConfusion hc),
            if_neg hpq, Nat.add_zero]
      · rw [List.getD_cons_succ] at hnone
        have hi2 : i2 < t.length := by
          rw [List.length_cons] at hi
          omega
        have hrec := ih i2 p q hi2 hnone
        show (a :: t.set i2 (some p)).count (some q) = (a :: t).count (some q) + _
        by_cases haq : a = some q
        · subst haq
          rw [List.count_cons_self, List.count_cons_self, hrec]
          omega
        · rw [List.count_cons_of_ne (fun hc => haq hc.symm),
            List.count_cons_of_ne (fun hc => haq hc.symm), hrec]

/-- Growing the slot table adds only empty slots, so occurrence counts
are unchanged. -/
theorem reserve_slots_count (l : List (Option PageId)) (n : Nat) (q : PageId) :
    (reserve_slots l n).count (some q) = l.count (some q) := by
  unfold reserve_slots
  split
  · rfl
  · rw [List.count_append, count_replicate_none, Nat.add_zero]

/-- Setting the freshly appended last element. -/
theorem set_concat_length {α : Type _} (l : List α) (a b : α) :
    (l ++ [a]).set l.length b = l ++ [b] := by
  induction l with
  | nil => rfl
  | cons x t ih =>
      show x :: ((t ++ [a]).set t.length b) = x :: (t ++ [b])
      rw [ih]

/-- Sums of pointwise added maps split. -/
theorem sum_map_add {α : Type _} (l : List α) (f g : α → Nat) :
    (l.map (fun a => f a + g a)).sum = (l.map f).sum + (l.map g).sum := by
  induction l with
  | nil => rfl
  | cons x t ih =>
      simp only [List.map_cons, List.sum_cons, ih]
      omega

/-- A sum of indicator values is a `countP`. -/
theorem sum_ite_eq_countP {α : Type _} (l : List α) (P : α → Prop)
    [DecidablePred P] :
    (l.map (fun a => if P a then 1 else 0)).sum
      = l.countP (fun a => decide (P a)) := by
  induction l with
  | nil => rfl
  | cons x t ih =>
      simp only [List.map_cons, List.sum_cons, List.countP_cons, ih]
      by_cases hx : P x
      · rw [if_pos hx, if_pos (by simpa using hx)]
        omega
      · rw [if_neg hx, if_neg (by simpa using hx)]
        omega

/-- On a duplicate-free list, membership-counting counts the length. -/
theorem countP_mem_eq_length {l : List PageId} {np : Nat}
    (hnodup : l.Nodup) (hlt : ∀ p ∈ l, p < np) :
    (List.range np).countP (fun i => decide (i ∈ l)) = l.length := by
  rw [List.countP_eq_length_filter]
  have hperm : List.Perm
      ((List.range np).filter (fun i => decide (i ∈ l))) l := by
    rw [List.perm_ext_iff_of_nodup
      (List.Nodup.filter _ (List.nodup_range _)) hnodup]
    intro a
    rw [List.mem_filter, List.mem_range, decide_eq_true_eq]
    exact ⟨fun h => h.2, fun h => ⟨hlt a h, h⟩⟩
  exact hperm.length_eq

/-- Indicator of one in-range point over `range` sums to 1. -/
theorem sum_indicator_range {p np : Nat} (hp : p < np) :
    ((List.range np).map (fun q => if q = p then 1 else 0)).sum = 1 := by
  rw [sum_ite_eq_countP, List.countP_eq_length_filter]
  have hperm : List.Perm
      ((List.range np).filter (fun q => decide (q = p))) [p] := by
    rw [List.perm_ext_iff_of_nodup
      (List.Nodup.filter _ (List.nodup_range _)) (List.nodup_singleton p)]
    intro a
    rw [List.mem_filter, List.mem_range, decide_eq_true_eq, List.mem_singleton]
    exact ⟨fun h => h.2, fun h => ⟨by omega, h⟩⟩
  rw [hperm.length_eq]
  rfl

/-- Occurrence counts of a valid-handle list summed over the whole page
range give the list's length. -/
theorem sum_count_range :
    ∀ (l : List PageId) (np : Nat), (∀ p ∈ l, p < np) →
      ((List.range np).map (fun q => l.count q)).sum = l.length := by
  intro l
  induction l with
  | nil =>
      intro np _
      simp
  | cons p t ih =>
      intro np h
      have hp : p < np := h p (List.mem_cons_self p t)
      have hsplit : ((List.range np).map (fun q => (p :: t).count q)).sum
          = ((List.range np).map
              (fun q => t.count q + (if q = p then 1 else 0))).sum := by
        apply congrArg
        apply List.map_congr_left
        intro q _
        by_cases hq : q = p
        · subst hq
          rw [List.count_cons_self, if_pos rfl]
        · rw [List.count_cons_of_ne hq, if_neg hq]
          omega
      rw [hsplit, sum_map_add, ih np (fun x hx => h x (List.mem_cons_of_mem p hx)),
        sum_indicator_range hp, List.length_cons]

/-- Occurrence counts of a slot list over the whole page range give the
number of populated slots. -/
theorem sum_count_some_range :
    ∀ (l : List (Option PageId)) (np : Nat),
      (∀ p, (some p) ∈ l → p < np) →
      ((List.range np).map (fun q => l.count (some q))).sum
        = l.countP (fun o => o.isSome) := by
  intro l
  induction l with
  | nil =>
      intro np _
      simp
  | cons a t ih =>
      intro np h
      have ht := ih np (fun p hp => h p (List.mem_cons_of_mem a hp))
      rcases a with _ | p
      · have hsplit : ((List.range np).map (fun q => (none :: t).count (some q))).sum
            = ((List.range np).map (fun q => t.count (some q))).sum := by
          apply congrArg
          apply List.map_congr_left
          intro q _
          rw [List.count_cons_of_ne (fun hc => Option.noConfusion hc)]
        rw [hsplit, ht]
        simp [List.countP_cons]
      · have hp : p < np := h p (List.mem_cons_self _ _)
        have hsplit : ((List.range np).map
              (fun q => (some p :: t).count (some q))).sum
            = ((List.range np).map
                (fun q => t.count (some q) + (if q = p then 1 else 0))).sum := by
          apply congrArg
          apply List.map_congr_left
          intro q _
          by_cases hq : q = p
          · subst hq
            rw [List.count_cons_self, if_pos rfl]
          · rw [List.count_cons_of_ne
                (fun hc => hq (Option.some.inj hc)), if_neg hq]
            omega
        rw [hsplit, sum_map_add, ht, sum_indicator_range hp]
        simp [List.countP_cons]

/-- Splitting a positivity count over a pointwise sum: a point counts
iff the first summand is positive or the first vanishes and the second
is positive. -/
theorem countP_split_fresh (l : List PageId) (f g : PageId → Nat) :
    l.countP (fun i => decide (0 < f i + g i))
      = l.countP (fun i => decide (0 < f i))
        + l.countP (fun i => decide (f i = 0 ∧ 0 < g i)) := by
  induction l with
  | nil => rfl
  | cons x t ih =>
      simp only [List.countP_cons, ih]
      by_cases h1 : 0 < f x
      · rw [if_pos (by simpa using (by omega : 0 < f x + g x)),
          if_pos (by simpa using h1),
          if_neg (by simp; omega)]
        omega
      · by_cases h2 : 0 < g x
        · rw [if_pos (by simpa using (by omega : 0 < f x + g x)),
            if_neg (by simpa using h1),
            if_pos (by simp; omega)]
          omega
        · rw [if_neg (by simp; omega), if_neg (by simpa using h1),
            if_neg (by simp; omega)]
          omega

/-- When a count function is at most 1 everywhere on the list,
positivity-counting equals summing. -/
theorem countP_pos_eq_sum_of_le_one :
    ∀ (l : List PageId) (f : PageId → Nat), (∀ p ∈ l, f p ≤ 1) →
      l.countP (fun i => decide (0 < f i)) = (l.map f).sum := by
  intro l
  induction l with
  | nil =>
      intro f _
      rfl
  | cons x t ih =>
      intro f h
      have hx := h x (List.mem_cons_self x t)
      simp only [List.countP_cons, List.map_cons, List.sum_cons,
        ih f (fun p hp => h p (List.mem_cons_of_mem x hp))]
      by_cases h1 : 0 < f x
      · rw [if_pos (by simpa using h1)]
        omega
      · rw [if_neg (by simpa using h1)]
        omega

/-- Two lists whose elements correspond pointwise under `f` and `g`
have equal map-sums. -/
theorem map_sum_eq_of_corresponding {α β : Type _} :
    ∀ (l1 : List α) (l2 : List β) (f : α → Nat) (g : β → Nat),
      l1.length = l2.length →
      (∀ (k : Nat) (a : α) (b : β), l1[k]? = some a → l2[k]? = some b → f a = g b) →
      (l1.map f).sum = (l2.map g).sum := by
  intro l1
  induction l1 with
  | nil =>
      intro l2 f g hlen _
      rcases l2 with _ | ⟨b, t2⟩
      · rfl
      · simp at hlen
  | cons a t ih =>
      intro l2 f g hlen h
      rcases l2 with _ | ⟨b, t2⟩
      · simp at hlen
      · have h0 := h 0 a b (by simp) (by simp)
        have ht : (t.map f).sum = (t2.map g).sum := by
          apply ih t2 f g (by simpa using hlen)
          intro k x y hx hy
          exact h (k + 1) x y (by simpa using hx) (by simpa using hy)
        simp only [List.map_cons, List.sum_cons, h0, ht]

/-- An in-range `getD` is a member. -/
theorem getD_mem_of_lt {α : Type _} (l : List α) (i : Nat) (d : α)
    (h : i < l.length) : l.getD i d ∈ l := by
  rw [List.getD_eq_getElem?_getD, List.getElem?_eq_getElem h]
  show l[i] ∈ l
  exact List.getElem_mem h

/-! ## The backend accounting invariant (C8, C9)

`slots_count` counts the occurrences of a page handle across all slot
tables, `groups_count` across all built group entries; the invariant
says every refcount is exactly the number of outstanding references
(slots plus group table), that the group table holds each page at most
once, and that a page not owned by a group sits in at most one slot. -/

def slots_count (seqs : List PagedSeqState) (q : PageId) : Nat :=
  (seqs.map (fun s => s.slots.count (some q))).sum

def groups_count (groups : List SharedPref) (q : PageId) : Nat :=
  (groups.map (fun g => if g.built then g.pages.count q else 0)).sum

def slot_count (impl : PagedKV) (q : PageId) : Nat :=
  slots_count impl.seqs q

def group_count (impl : PagedKV) (q : PageId) : Nat :=
  groups_count impl.groups q

structure KVInv (impl : PagedKV) : Prop where
  painv : PAInv impl.alloc
  acc : ∀ q, refcount impl.alloc q = slot_count impl q + group_count impl q
  gone : ∀ q, group_count impl q ≤ 1
  sone : ∀ q, group_count impl q = 0 → slot_count impl q ≤ 1

theorem slots_count_append (l : List PagedSeqState) (s : PagedSeqState)
    (q : PageId) :
    slots_count (l ++ [s]) q = slots_count l q + s.slots.count (some q) := by
  simp [slots_count]

theorem slots_count_set :
    ∀ (l : List PagedSeqState) (i : Nat) (s s1 : PagedSeqState) (q : PageId),
      l[i]? = some s →
      slots_count (l.set i s1) q + s.slots.count (some q)
        = slots_count l q + s1.slots.count (some q) := by
  intro l
  induction l with
  | nil =>
      intro i s s1 q hi
      exact absurd hi (by simp)
  | cons a t ih =>
      intro i s s1 q hi
      rcases i with _ | i2
      · have ha : a = s := Option.some.inj (by simpa using hi)
        subst ha
        show (s1.slots.count (some q) + slots_count t q) + _
          = (a.slots.count (some q) + slots_count t q) + _
        omega
      · have hrec := ih i2 s s1 q (by simpa using hi)
        show (a.slots.count (some q) + slots_count (t.set i2 s1) q) + _
          = (a.slots.count (some q) + slots_count t q) + _
        omega

theorem groups_count_set_unbuilt :
    ∀ (l : List SharedPref) (i : Nat) (g1 : SharedPref) (q : PageId),
      i < l.length → (l.getD i default).built = false →
      groups_count (l.set i g1) q
        = groups_count l q + (if g1.built then g1.pages.count q else 0) := by
  intro l
  induction l with
  | nil =>
      intro i g1 q hi _
      simp at hi
  | cons a t ih =>
      intro i g1 q hi hold
      rcases i with _ | i2
      · rw [List.getD_cons_zero] at hold
        show (if g1.built then g1.pages.count q else 0) + groups_count t q
          = ((if a.built then a.pages.count q else 0) + groups_count t q) + _
        rw [hold]
        simp
        omega
      · rw [List.getD_cons_succ] at hold
        have hrec := ih i2 g1 q (by simpa using hi) hold
        show (if a.built then a.pages.count q else 0) + groups_count (t.set i2 g1) q
          = ((if a.built then a.pages.count q else 0) + groups_count t q) + _
        rw [hrec]
        omega

/-- A built group entry containing page `q` contributes to
`groups_count`. -/
theorem groups_count_pos_of_mem {l : List SharedPref} {i : Nat} {q : PageId}
    (hi : i < l.length) (hbuilt : (l.getD i default).built = true)
    (hmem : q ∈ (l.getD i default).pages) :
    1 ≤ groups_count l q := by
  have hval : (if (l.getD i default).built
        then (l.getD i default).pages.count q else 0)
      ∈ l.map (fun g => if g.built then g.pages.count q else 0) :=
    List.mem_map_of_mem _ (getD_mem_of_lt l i default hi)
  have hle := List.single_le_sum
    (fun (x : Nat) _ => Nat.zero_le x) _ hval
  rw [hbuilt, if_pos rfl] at hle
  have hpos : 1 ≤ (l.getD i default).pages.count q :=
    List.count_pos_iff.mpr hmem
  exact le_trans hpos (by simpa [groups_count] using hle)

/-- A sequence's own occurrence count is at most the total. -/
theorem count_le_slots_count {l : List PagedSeqState} {s : PagedSeqState}
    (hs : s ∈ l) (q : PageId) :
    s.slots.count (some q) ≤ slots_count l q := by
  have hval : s.slots.count (some q)
      ∈ l.map (fun x => x.slots.count (some q)) :=
    List.mem_map_of_mem _ hs
  exact List.single_le_sum (fun (x : Nat) _ => Nat.zero_le x) _ hval

/-- The fresh backend satisfies the accounting invariant. -/
theorem KVInv_create (cfg : SimConfig) : KVInv (create_paged_backend cfg) := by
  have hg : ∀ q, group_count (create_paged_backend cfg) q = 0 := by
    intro q
    simp [group_count, groups_count, create_paged_backend, List.map_replicate]
  refine ⟨PAInv_create cfg, ?_, ?_, ?_⟩
  · intro q
    have hr : refcount (page_allocator_create cfg) q = 0 := by
      simp [refcount, page_allocator_create, getD_replicate]
    show refcount (page_allocator_create cfg) q = _
    rw [hr, hg q]
    rfl
  · intro q
    rw [hg q]
    omega
  · intro q _
    show slots_count [] q ≤ 1
    simp [slots_count]

/-! ## Specifications of the allocation and release loops -/

/-- A successful `alloc_pages` hands out `n` distinct previously free
pages, setting each refcount to 1 and touching nothing else. -/
theorem alloc_pages_spec :
    ∀ (n : Nat) (pa pa' : PageAllocator) (ps : List PageId),
      PAInv pa →
      alloc_pages pa n = some (pa', ps) →
      ps.length = n ∧ PAInv pa' ∧
      pa'.num_pages = pa.num_pages ∧ pa'.page_bytes = pa.page_bytes ∧
      pa'.pages.length = pa.pages.length ∧
      ps.Nodup ∧
      (∀ p ∈ ps, p < pa.num_pages ∧ refcount pa p = 0) ∧
      (∀ q, refcount pa' q = if q ∈ ps then 1 else refcount pa q) := by
  intro n
  induction n with
  | zero =>
      intro pa pa' ps hinv h
      have h2 := Option.some.inj h
      rw [Prod.mk.injEq] at h2
      obtain ⟨hpa, hps⟩ := h2
      subst hpa
      subst hps
      refine ⟨rfl, hinv, rfl, rfl, rfl, List.nodup_nil, by simp, ?_⟩
      intro q
      rw [if_neg (by simp)]
  | succ n ih =>
      intro pa pa' ps hinv h
      simp only [alloc_pages] at h
      rcases halloc : page_alloc pa with _ | ⟨pa1, p⟩
      · rw [halloc] at h
        exact absurd h (by simp)
      · rw [halloc] at h
        have h3 : (match alloc_pages pa1 n with
            | none => none
            | some (pa2, ps2) => some (pa2, p :: ps2)) = some (pa', ps) := h
        rcases hrest : alloc_pages pa1 n with _ | ⟨pa2, ps1⟩
        · rw [hrest] at h3
          exact absurd h3 (by simp)
        · rw [hrest] at h3
          have h2 := Option.some.inj h3
          rw [Prod.mk.injEq] at h2
          obtain ⟨hpa, hps⟩ := h2
          subst hpa
          subst hps
          obtain ⟨hfl, hpg, hnp, hpb⟩ := page_alloc_some_elim halloc
          have hinv1 : PAInv pa1 := page_alloc_inv hinv halloc
          have hpmem : p ∈ pa.free_list := by
            rw [hfl]
            exact List.mem_cons_self _ _
          have hpfacts := (hinv.mem_free p).1 hpmem
          have hplen : p < pa.pages.length := hinv.len_eq ▸ hpfacts.1
          have href1p : refcount pa1 p = 1 := by
            simp only [refcount, hpg]
            exact getD_set_self _ _ _ _ hplen
          have hrefne : ∀ q, q ≠ p → refcount pa1 q = refcount pa q := by
            intro q hq
            simp only [refcount, hpg]
            exact getD_set_ne _ _ _ _ _ hq
          obtain ⟨hl1, hinv2, hnp2, hpb2, hlen2, hnd1, hfresh1, href2⟩ :=
            ih pa1 _ ps1 hinv1 hrest
          have hpnot : p ∉ ps1 := by
            intro hc
            have := (hfresh1 p hc).2
            rw [href1p] at this
            exact one_ne_zero this
          refine ⟨by rw [List.length_cons, hl1], hinv2,
            by rw [hnp2, hnp], by rw [hpb2, hpb],
            by rw [hlen2, hpg, List.length_set],
            List.nodup_cons.mpr ⟨hpnot, hnd1⟩, ?_, ?_⟩
          · intro x hx
            rcases List.mem_cons.mp hx with hxp | hxm
            · subst hxp
              exact hpfacts
            · have hxf := hfresh1 x hxm
              have hxne : x ≠ p := by
                intro hc
                subst hc
                rw [href1p] at hxf
                exact one_ne_zero hxf.2
              exact ⟨by rw [← hnp]; exact hxf.1, by rw [← hrefne x hxne]; exact hxf.2⟩
          · intro q
            rw [href2 q]
            by_cases hqmem : q ∈ ps1
            · rw [if_pos hqmem, if_pos (List.mem_cons_of_mem p hqmem)]
            · rw [if_neg hqmem]
              by_cases hqp : q = p
              · subst hqp
                rw [if_pos (List.mem_cons_self _ _), href1p]
              · rw [if_neg (by
                  rw [List.mem_cons]
                  rintro (hc | hc)
                  · exact hqp hc
                  · exact hqmem hc), hrefne q hqp]

/-- A successful `build_shared_prefix` with a positive token count
yields a built entry of exactly `ceil(tokens / tokens_per_page)` fresh
distinct pages, each at refcount 1. -/
theorem build_shared_pref_spec {cfg : SimConfig} {pa pa' : PageAllocator}
    {pref : SharedPref} {stok : Nat}
    (hinv : PAInv pa) (hstok : stok ≠ 0)
    (h : build_shared_pref cfg pa stok = some (pa', pref)) :
    pref.built = true ∧ pref.pref_tokens = stok ∧
    pref.pages.length = ceil_div stok cfg.tokens_per_page ∧
    PAInv pa' ∧
    pa'.num_pages = pa.num_pages ∧ pa'.page_bytes = pa.page_bytes ∧
    pa'.pages.length = pa.pages.length ∧
    pref.pages.Nodup ∧
    (∀ p ∈ pref.pages, p < pa.num_pages ∧ refcount pa p = 0) ∧
    (∀ q, refcount pa' q = if q ∈ pref.pages then 1 else refcount pa q) := by
  simp only [build_shared_pref, hstok, if_false] at h
  rcases halloc : alloc_pages pa ((stok + cfg.tokens_per_page - 1)
      / cfg.tokens_per_page) with _ | ⟨pa1, ps⟩
  · rw [halloc] at h
    exact absurd h (by simp)
  · rw [halloc] at h
    have h2 := Option.some.inj h
    rw [Prod.mk.injEq] at h2
    obtain ⟨hpa, hpref⟩ := h2
    subst hpa
    obtain ⟨hl, hinv1, hnp, hpb, hlen, hnd, hfresh, href⟩ :=
      alloc_pages_spec _ pa _ ps hinv halloc
    subst hpref
    exact ⟨rfl, rfl, hl, hinv1, hnp, hpb, hlen, hnd, hfresh, href⟩

/-- A slot list whose occurrence counts are covered by the refcounts
can always be released: `dec_slots` succeeds and subtracts exactly the
occurrence count from every refcount. -/
theorem dec_slots_spec :
    ∀ (l : List (Option PageId)) (pa : PageAllocator),
      PAInv pa →
      (∀ q, l.count (some q) ≤ refcount pa q) →
      ∃ pa', dec_slots pa l = some pa' ∧ PAInv pa' ∧
        pa'.num_pages = pa.num_pages ∧ pa'.page_bytes = pa.page_bytes ∧
        pa'.pages.length = pa.pages.length ∧
        (∀ q, refcount pa' q + l.count (some q) = refcount pa q) := by
  intro l
  induction l with
  | nil =>
      intro pa hinv _
      exact ⟨pa, rfl, hinv, rfl, rfl, rfl, fun q => rfl⟩
  | cons a t ih =>
      intro pa hinv hcov
      rcases a with _ | p
      · have hcov' : ∀ q, t.count (some q) ≤ refcount pa q := by
          intro q
          have := hcov q
          rw [List.count_cons_of_ne (fun hc => Option.noConfusion hc)] at this
          exact this
        obtain ⟨pa', hdec, hinv', hnp, hpb, hlen, href⟩ := ih pa hinv hcov'
        refine ⟨pa', hdec, hinv', hnp, hpb, hlen, ?_⟩
        intro q
        rw [List.count_cons_of_ne (fun hc => Option.noConfusion hc)]
        exact href q
      · have hppos : 0 < refcount pa p := by
          have := hcov p
          rw [List.count_cons_self] at this
          omega
        have hpz : ¬ refcount pa p = 0 := by omega
        have hplen : p < pa.pages.length := lt_length_of_getD_ne _ _ _ hpz
        have hdec1 : page_dec_ref pa p = some { pa with
            pages := pa.pages.set p (refcount pa p - 1)
            free_list := if refcount pa p - 1 = 0
              then p :: pa.free_list else pa.free_list } := by
          unfold page_dec_ref
          rw [if_neg hpz]
        have hinv1 : PAInv _ := page_dec_ref_inv hinv hdec1
        have hrefp1 : refcount { pa with
            pages := pa.pages.set p (refcount pa p - 1)
            free_list := if refcount pa p - 1 = 0
              then p :: pa.free_list else pa.free_list } p
            = refcount pa p - 1 := by
          simp only [refcount]
          exact getD_set_self _ _ _ _ hplen
        have hrefne1 : ∀ q, q ≠ p → refcount { pa with
            pages := pa.pages.set p (refcount pa p - 1)
            free_list := if refcount pa p - 1 = 0
              then p :: pa.free_list else pa.free_list } q
            = refcount pa q := by
          intro q hq
          simp only [refcount]
          exact getD_set_ne _ _ _ _ _ hq
        have hcov1 : ∀ q, t.count (some q) ≤ refcount { pa with
            pages := pa.pages.set p (refcount pa p - 1)
            free_list := if refcount pa p - 1 = 0
              then p :: pa.free_list else pa.free_list } q := by
          intro q
          by_cases hq : q = p
          · subst hq
            rw [hrefp1]
            have := hcov q
            rw [List.count_cons_self] at this
            omega
          · rw [hrefne1 q hq]
            have := hcov q
            rw [List.count_cons_of_ne
              (fun hc => hq (Option.some.inj hc))] at this
            exact this
        obtain ⟨pa', hdec, hinv', hnp, hpb, hlen, href⟩ := ih _ hinv1 hcov1
        refine ⟨pa', ?_, hinv', by simpa using hnp, by simpa using hpb,
          by rw [hlen]; simp [List.length_set], ?_⟩
        · show dec_slots pa (some p :: t) = some pa'
          simp only [dec_slots]
          rw [hdec1]
          exact hdec
        · intro q
          by_cases hq : q = p
          · subst hq
            rw [List.count_cons_self]
            have := href q
            rw [hrefp1] at this
            omega
          · rw [List.count_cons_of_ne (fun hc => hq (Option.some.inj hc))]
            have := href q
            rw [hrefne1 q hq] at this
            exact this

/-- The attach loop writes one occurrence of each attached page into a
previously empty region of the slot table. -/
theorem attach_go_count :
    ∀ (pages : List PageId) (pa : PageAllocator) (slots : List (Option PageId))
      (i : Nat),
      i + pages.length ≤ slots.length →
      (∀ k, i ≤ k → k < i + pages.length → slots.getD k none = none) →
      ∀ q, (attach_go pa slots i pages).2.count (some q)
        = slots.count (some q) + pages.count q := by
  intro pages
  induction pages with
  | nil =>
      intro pa slots i _ _ q
      show slots.count (some q) = slots.count (some q) + List.count q []
      simp
  | cons p ps ih =>
      intro pa slots i hlen hnone q
      have hil : i < slots.length := by
        rw [List.length_cons] at hlen
        omega
      have hinone : slots.getD i none = none :=
        hnone i (le_refl i) (by rw [List.length_cons]; omega)
      have hnone' : ∀ k, i + 1 ≤ k → k < i + 1 + ps.length →
          (slots.set i (some p)).getD k none = none := by
        intro k hk1 hk2
        rw [getD_set_ne _ _ _ _ _ (by omega)]
        exact hnone k (by omega) (by rw [List.length_cons]; omega)
      have hrec := ih (page_inc_ref pa p) (slots.set i (some p)) (i + 1)
        (by rw [List.length_set]; rw [List.length_cons] at hlen; omega) hnone' q
      show (attach_go (page_inc_ref pa p) (slots.set i (some p)) (i + 1) ps).2.count
          (some q) = slots.count (some q) + (p :: ps).count q
      rw [hrec, count_set_some_of_none slots i p q hil hinone]
      by_cases hpq : p = q
      · subst hpq
        rw [List.count_cons_self, if_pos rfl]
        omega
      · rw [List.count_cons_of_ne (fun hc => hpq hc.symm), if_neg hpq]
        omega

/-- The attach loop preserves the allocator invariant when every
attached page is live (holds whenever the pages are owned by a group
entry). -/
theorem attach_go_painv :
    ∀ (pages : List PageId) (pa : PageAllocator) (slots : List (Option PageId))
      (i : Nat),
      PAInv pa →
      (∀ p ∈ pages, 0 < refcount pa p) →
      PAInv (attach_go pa slots i pages).1 := by
  intro pages
  induction pages with
  | nil =>
      intro pa slots i hinv _
      exact hinv
  | cons p ps ih =>
      intro pa slots i hinv hpos
      have hppos : 0 < refcount pa p := hpos p (List.mem_cons_self p ps)
      have hpz : ¬ refcount pa p = 0 := by omega
      have hplen : p < pa.pages.length := lt_length_of_getD_ne _ _ _ hpz
      have hinv1 : PAInv (page_inc_ref pa p) := page_inc_ref_inv hinv hppos
      have hpos1 : ∀ x ∈ ps, 0 < refcount (page_inc_ref pa p) x := by
        intro x hx
        by_cases hxp : x = p
        · subst hxp
          have : refcount (page_inc_ref pa x) x = refcount pa x + 1 := by
            simp only [refcount, page_inc_ref]
            exact getD_set_self _ _ _ _ hplen
          omega
        · have : refcount (page_inc_ref pa p) x = refcount pa x := by
            simp only [refcount, page_inc_ref]
            exact getD_set_ne _ _ _ _ _ hxp
          rw [this]
          exact hpos x (List.mem_cons_of_mem p hx)
      exact ih (page_inc_ref pa p) (slots.set i (some p)) (i + 1) hinv1 hpos1

/-! ## Preservation of the accounting invariant -/

/-- Whether this `init` call is the one that initializes (builds) its
group's entry: sharing applies and the entry is not yet built. -/
def init_builds_group (impl : PagedKV) (w : SequenceWork) : Bool :=
  decide (0 < declared_shared_tokens impl w) && decide (0 < impl.groups.length)
    && !(impl.groups.getD (group_id impl w) default).built

theorem init_builds_group_iff (impl : PagedKV) (w : SequenceWork) :
    init_builds_group impl w = true ↔
      (0 < declared_shared_tokens impl w ∧ 0 < impl.groups.length ∧
        (impl.groups.getD (group_id impl w) default).built = false) := by
  simp [init_builds_group, Bool.and_eq_true, decide_eq_true_eq,
    Bool.not_eq_true', and_assoc]

/-- A successful `paged_init_sequence` from an invariant state: the
invariant is preserved, one sequence is appended, and the group table's
page ownership grows by exactly the freshly built entry's pages (none
unless this init builds its group's entry).  `bp` is the list of pages
built for the group entry by this call. -/
theorem paged_init_sequence_acc {impl st1 : PagedKV} {w : SequenceWork} {id : Nat}
    (hinv : KVInv impl)
    (h : paged_init_sequence impl w = some (st1, id)) :
    KVInv st1 ∧ st1.cfg = impl.cfg ∧ id = impl.seqs.length ∧
    (∃ snew, st1.seqs = impl.seqs ++ [snew]) ∧
    st1.alloc.num_pages = impl.alloc.num_pages ∧
    ∃ bp : List PageId,
      bp.Nodup ∧
      (init_builds_group impl w = true →
        bp.length = ceil_div (declared_shared_tokens impl w)
          impl.cfg.tokens_per_page) ∧
      (init_builds_group impl w = false → bp = []) ∧
      (∀ p ∈ bp, p < impl.alloc.num_pages ∧ refcount impl.alloc p = 0) ∧
      (∀ q, group_count st1 q = group_count impl q + bp.count q) := by
  obtain ⟨r, hcore, hcfg, halloc, hgroups, hseqs, hid⟩ := paged_init_sequence_elim h
  by_cases hcond : 0 < declared_shared_tokens impl w ∧ 0 < impl.groups.length
  · simp only [paged_init_core] at hcore
    rw [if_pos hcond] at hcore
    by_cases hbuilt : (impl.groups.getD (group_id impl w) default).built = true
    · -- the group entry already exists: attach its pages
      rw [if_pos hbuilt] at hcore
      have hibg : init_builds_group impl w = false := by
        rw [← Bool.not_eq_true, init_builds_group_iff]
        intro hc
        rw [hc.2.2] at hbuilt
        exact Bool.false_ne_true hbuilt
      set pref0 := impl.groups.getD (group_id impl w) default with hpref0
      have hr := Option.some.inj hcore
      have hb2 : (impl.groups.getD (group_id impl w) default).built = true := by
        rw [← hpref0]
        exact hbuilt
      have hgid2 : group_id impl w < impl.groups.length := by
        show w.shared_prompt_id.toNat % impl.groups.length < impl.groups.length
        exact Nat.mod_lt _ hcond.2
      have hlive : ∀ p ∈ pref0.pages, 0 < refcount impl.alloc p := by
        intro p hp
        have hp2 : p ∈ (impl.groups.getD (group_id impl w) default).pages := by
          rw [← hpref0]
          exact hp
        have hgc : 1 ≤ groups_count impl.groups p :=
          groups_count_pos_of_mem hgid2 hb2 hp2
        have hacc := hinv.acc p
        show 0 < refcount impl.alloc p
        rw [hacc]
        have hgg : group_count impl p = groups_count impl.groups p := rfl
        omega
      have hvalid : ∀ p ∈ pref0.pages, p < impl.alloc.pages.length := by
        intro p hp
        have h1 := hlive p hp
        apply lt_length_of_getD_ne impl.alloc.pages p 0
        show refcount impl.alloc p ≠ 0
        omega
      have hattlen : 0 + pref0.pages.length
          ≤ (reserve_slots [] pref0.pages.length).length := by
        have := (reserve_slots_length_ge [] pref0.pages.length).1
        omega
      obtain ⟨hfl, hnp, hpb, hlen, href, hslen, hlow, hpat⟩ :=
        attach_go_spec pref0.pages impl.alloc
          (reserve_slots [] pref0.pages.length) 0 hvalid hattlen
      have hempty : ∀ k, 0 ≤ k → k < 0 + pref0.pages.length →
          (reserve_slots [] pref0.pages.length).getD k none = none := by
        intro k _ _
        rw [reserve_slots_getD]
        rfl
      have hcnt := attach_go_count pref0.pages impl.alloc
        (reserve_slots [] pref0.pages.length) 0 hattlen hempty
      have hcnt0 : ∀ q, (reserve_slots [] pref0.pages.length).count (some q)
          = 0 := by
        intro q
        rw [reserve_slots_count]
        rfl
      have hpainv1 : PAInv st1.alloc := by
        rw [halloc, ← hr]
        exact attach_go_painv pref0.pages impl.alloc _ 0 hinv.painv hlive
      have hga : st1.alloc = (attach_go impl.alloc
          (reserve_slots [] pref0.pages.length) 0 pref0.pages).1 := by
        rw [halloc, ← hr]
      have hgroups1 : st1.groups = impl.groups := by
        rw [hgroups, ← hr]
      have hsnew : r.2.2.slots = (attach_go impl.alloc
          (reserve_slots [] pref0.pages.length) 0 pref0.pages).2 := by
        rw [← hr]
      have hslot1 : ∀ q, slot_count st1 q
          = slot_count impl q + pref0.pages.count q := by
        intro q
        show slots_count st1.seqs q = _
        rw [hseqs, slots_count_append, hsnew, hcnt q, hcnt0 q]
        have hsc : slot_count impl q = slots_count impl.seqs q := rfl
        omega
      have hgc1 : ∀ q, group_count st1 q = group_count impl q := by
        intro q
        show groups_count st1.groups q = groups_count impl.groups q
        rw [hgroups1]
      have href1 : ∀ q, refcount st1.alloc q
          = refcount impl.alloc q + pref0.pages.count q := by
        intro q
        rw [hga]
        exact href q
      refine ⟨⟨hpainv1, ?_, ?_, ?_⟩, hcfg, hid, ⟨r.2.2, hseqs⟩,
        by rw [hga]; exact hnp, [], List.nodup_nil,
        fun hc => absurd hc (by rw [hibg]; exact Bool.false_ne_true),
        fun _ => rfl, by simp, ?_⟩
      · intro q
        rw [href1 q, hslot1 q, hgc1 q, hinv.acc q]
        omega
      · intro q
        rw [hgc1 q]
        exact hinv.gone q
      · intro q hq
        rw [hgc1 q] at hq
        have hcnt_zero : pref0.pages.count q = 0 := by
          by_contra hc
          have hmem : q ∈ pref0.pages := List.count_pos_iff.mp (by omega)
          have hm2 : q ∈ (impl.groups.getD (group_id impl w) default).pages := by
            rw [← hpref0]
            exact hmem
          have := groups_count_pos_of_mem hgid2 hb2 hm2
          have hgcq : groups_count impl.groups q = group_count impl q := rfl
          omega
        rw [hslot1 q, hcnt_zero]
        have := hinv.sone q hq
        omega
      · intro q
        rw [hgc1 q]
        have : List.count q ([] : List PageId) = 0 := rfl
        omega
    · -- first use of the group: build the entry, then attach
      rw [if_neg hbuilt] at hcore
      have hibg : init_builds_group impl w = true := by
        rw [init_builds_group_iff]
        exact ⟨hcond.1, hcond.2, Bool.not_eq_true _ ▸ hbuilt⟩
      rcases hbuild : build_shared_pref impl.cfg impl.alloc
          (declared_shared_tokens impl w) with _ | ⟨pa1, pref⟩
      · rw [hbuild] at hcore
        exact absurd hcore (by simp)
      · rw [hbuild] at hcore
        have hr := Option.some.inj hcore
        obtain ⟨hpbuilt, hptok, hplen, hpainv1, hnp1, hpb1, hplen1, hpnd,
            hpfresh, hpref⟩ :=
          build_shared_pref_spec hinv.painv (by omega) hbuild
        have hvalid : ∀ p ∈ pref.pages, p < pa1.pages.length := by
          intro p hp
          rw [hplen1, hinv.painv.len_eq]
          exact (hpfresh p hp).1
        have hlive : ∀ p ∈ pref.pages, 0 < refcount pa1 p := by
          intro p hp
          rw [hpref p, if_pos hp]
          omega
        have hattlen : 0 + pref.pages.length
            ≤ (reserve_slots [] pref.pages.length).length := by
          have := (reserve_slots_length_ge [] pref.pages.length).1
          omega
        obtain ⟨hfl, hnp, hpb, hlen, href, hslen, hlow, hpat⟩ :=
          attach_go_spec pref.pages pa1
            (reserve_slots [] pref.pages.length) 0 hvalid hattlen
        have hempty : ∀ k, 0 ≤ k → k < 0 + pref.pages.length →
            (reserve_slots [] pref.pages.length).getD k none = none := by
          intro k _ _
          rw [reserve_slots_getD]
          rfl
        have hcnt := attach_go_count pref.pages pa1
          (reserve_slots [] pref.pages.length) 0 hattlen hempty
        have hcnt0 : ∀ q, (reserve_slots [] pref.pages.length).count (some q)
            = 0 := by
          intro q
          rw [reserve_slots_count]
          rfl
        have hga : st1.alloc = (attach_go pa1
            (reserve_slots [] pref.pages.length) 0 pref.pages).1 := by
          rw [halloc, ← hr]
        have hpainv2 : PAInv st1.alloc := by
          rw [hga]
          exact attach_go_painv pref.pages pa1 _ 0 hpainv1 hlive
        have hgroups1 : st1.groups
            = impl.groups.set (group_id impl w) pref := by
          rw [hgroups, ← hr]
        have hsnew : r.2.2.slots = (attach_go pa1
            (reserve_slots [] pref.pages.length) 0 pref.pages).2 := by
          rw [← hr]
        have hgidlt : group_id impl w < impl.groups.length :=
          Nat.mod_lt _ hcond.2
        have hgc1 : ∀ q, group_count st1 q
            = group_count impl q + pref.pages.count q := by
          intro q
          show groups_count st1.groups q = _
          rw [hgroups1, groups_count_set_unbuilt impl.groups (group_id impl w)
            pref q hgidlt (Bool.not_eq_true _ ▸ hbuilt), hpbuilt, if_pos rfl]
          rfl
        have hslot1 : ∀ q, slot_count st1 q
            = slot_count impl q + pref.pages.count q := by
          intro q
          show slots_count st1.seqs q = _
          rw [hseqs, slots_count_append, hsnew, hcnt q, hcnt0 q]
          have hsc : slot_count impl q = slots_count impl.seqs q := rfl
          omega
        have href1 : ∀ q, refcount st1.alloc q
            = refcount impl.alloc q + 2 * pref.pages.count q := by
          intro q
          rw [hga, href q, hpref q]
          by_cases hq : q ∈ pref.pages
          · rw [if_pos hq, List.count_eq_one_of_mem hpnd hq,
              (hpfresh q hq).2]
          · rw [if_neg hq, List.count_eq_zero.mpr hq]
        have hfresh_zero : ∀ q ∈ pref.pages,
            slot_count impl q = 0 ∧ group_count impl q = 0 := by
          intro q hq
          have := hinv.acc q
          have := (hpfresh q hq).2
          constructor <;> omega
        refine ⟨⟨hpainv2, ?_, ?_, ?_⟩, hcfg, hid, ⟨r.2.2, hseqs⟩,
          by rw [hga, hnp, hnp1], pref.pages, hpnd,
          fun _ => hplen, fun hc => absurd hibg (by rw [hc]; exact
            Bool.false_ne_true), hpfresh, hgc1⟩
        · intro q
          rw [href1 q, hslot1 q, hgc1 q, hinv.acc q]
          omega
        · intro q
          rw [hgc1 q]
          by_cases hq : q ∈ pref.pages
          · rw [List.count_eq_one_of_mem hpnd hq, (hfresh_zero q hq).2]
          · rw [List.count_eq_zero.mpr hq]
            have := hinv.gone q
            omega
        · intro q hq
          rw [hgc1 q] at hq
          have hcq : pref.pages.count q = 0 := by omega
          have hgq : group_count impl q = 0 := by omega
          rw [hslot1 q, hcq]
          have := hinv.sone q hgq
          omega
  · -- no sharing: nothing but the fresh empty sequence changes
    simp only [paged_init_core] at hcore
    rw [if_neg hcond] at hcore
    have hr := Option.some.inj hcore
    have hibg : init_builds_group impl w = false := by
      rw [← Bool.not_eq_true, init_builds_group_iff]
      intro hc
      exact hcond ⟨hc.1, hc.2.1⟩
    have halloc1 : st1.alloc = impl.alloc := by
      rw [halloc, ← hr]
    have hgroups1 : st1.groups = impl.groups := by
      rw [hgroups, ← hr]
    have hsnew : r.2.2.slots = [] := by
      rw [← hr]
    have hslot1 : ∀ q, slot_count st1 q = slot_count impl q := by
      intro q
      show slots_count st1.seqs q = _
      rw [hseqs, slots_count_append, hsnew]
      have hsc : slot_count impl q = slots_count impl.seqs q := rfl
      show slots_count impl.seqs q + List.count (some q) [] = slot_count impl q
      rw [hsc]
      rfl
    have hgc1 : ∀ q, group_count st1 q = group_count impl q := by
      intro q
      show groups_count st1.groups q = groups_count impl.groups q
      rw [hgroups1]
    refine ⟨⟨by rw [halloc1]; exact hinv.painv, ?_, ?_, ?_⟩, hcfg, hid,
      ⟨r.2.2, hseqs⟩, by rw [halloc1], [], List.nodup_nil,
      fun hc => absurd hc (by rw [hibg]; exact Bool.false_ne_true),
      fun _ => rfl, by simp, ?_⟩
    · intro q
      rw [halloc1, hslot1 q, hgc1 q]
      exact hinv.acc q
    · intro q
      rw [hgc1 q]
      exact hinv.gone q
    · intro q hq
      rw [hgc1 q] at hq
      rw [hslot1 q]
      exact hinv.sone q hq
    · intro q
      rw [hgc1 q]
      have : List.count q ([] : List PageId) = 0 := rfl
      omega

/-- Accounting description of a successful `append_step`: at most one
page (`ap` is `[]` or `[p]`) is taken from the free pool (so it was
fresh), its refcount becomes 1, and it lands in exactly one slot of the
stepped sequence. -/
theorem append_step_acc {cfg : SimConfig} {pa pa1 : PageAllocator}
    {s s1 : PagedSeqState}
    (hinv : PAInv pa)
    (h : append_step cfg pa s = some (pa1, s1)) :
    PAInv pa1 ∧ pa1.num_pages = pa.num_pages ∧
      ∃ ap : List PageId,
        ap.Nodup ∧
        (∀ p ∈ ap, p < pa.num_pages ∧ refcount pa p = 0) ∧
        (∀ q, refcount pa1 q = refcount pa q + ap.count q) ∧
        (∀ q, s1.slots.count (some q) = s.slots.count (some q) + ap.count q) := by
  by_cases hmax : cfg.max_context_tokens ≤ s.cur_tokens
  · unfold append_step at h
    rw [if_pos hmax] at h
    have h2 := Option.some.inj h
    have hpa : pa = pa1 := congrArg Prod.fst h2
    have hs : s = s1 := congrArg Prod.snd h2
    subst hpa
    subst hs
    exact ⟨hinv, rfl, [], List.nodup_nil, by simp,
      fun q => by simp, fun q => by simp⟩
  · simp only [append_step, hmax, if_false] at h
    have hSLcount : ∀ q, ((if s.slots.length ≤ s.cur_tokens / cfg.tokens_per_page then
          reserve_slots s.slots (s.cur_tokens / cfg.tokens_per_page + 1)
        else s.slots).count (some q)) = s.slots.count (some q) := by
      intro q
      split
      · exact reserve_slots_count _ _ _
      · rfl
    have hSLgd : ∀ i,
        ((if s.slots.length ≤ s.cur_tokens / cfg.tokens_per_page then
            reserve_slots s.slots (s.cur_tokens / cfg.tokens_per_page + 1)
          else s.slots).getD i none)
        = s.slots.getD i none := by
      intro i
      split
      · exact reserve_slots_getD _ _ _
      · rfl
    have hSLlen : s.cur_tokens / cfg.tokens_per_page <
        (if s.slots.length ≤ s.cur_tokens / cfg.tokens_per_page then
            reserve_slots s.slots (s.cur_tokens / cfg.tokens_per_page + 1)
          else s.slots).length := by
      split
      next hle =>
        have := (reserve_slots_length_ge s.slots
          (s.cur_tokens / cfg.tokens_per_page + 1)).1
        omega
      next hle => omega
    by_cases hpop : (((if s.slots.length ≤ s.cur_tokens / cfg.tokens_per_page then
          reserve_slots s.slots (s.cur_tokens / cfg.tokens_per_page + 1)
        else s.slots).getD (s.cur_tokens / cfg.tokens_per_page) none).isSome = true)
    · rw [if_pos hpop] at h
      have h2 := Option.some.inj h
      have hpa : pa = pa1 := congrArg Prod.fst h2
      have hs1 : _ = s1 := congrArg Prod.snd h2
      subst hpa
      refine ⟨hinv, rfl, [], List.nodup_nil, by simp,
        fun q => by simp, fun q => ?_⟩
      rw [← hs1]
      show ((if s.slots.length ≤ s.cur_tokens / cfg.tokens_per_page then
          reserve_slots s.slots (s.cur_tokens / cfg.tokens_per_page + 1)
        else s.slots).count (some q)) = s.slots.count (some q) + List.count q []
      rw [hSLcount q]
      rfl
    · rw [if_neg hpop] at h
      rcases halloc : page_alloc pa with _ | ⟨pa2, p⟩
      · rw [halloc] at h
        exact absurd h (by simp)
      · rw [halloc] at h
        have h2 := Option.some.inj h
        have hpa : pa2 = pa1 := congrArg Prod.fst h2
        have hs1 : _ = s1 := congrArg Prod.snd h2
        subst hpa
        obtain ⟨hfl, hpg, hnp, hpb⟩ := page_alloc_some_elim halloc
        have hpmem : p ∈ pa.free_list := by
          rw [hfl]
          exact List.mem_cons_self _ _
        have hpfacts := (hinv.mem_free p).1 hpmem
        have hplen : p < pa.pages.length := hinv.len_eq ▸ hpfacts.1
        have href1 : refcount pa2 p = 1 := by
          simp only [refcount, hpg]
          exact getD_set_self _ _ _ _ hplen
        have hrefne : ∀ q, q ≠ p → refcount pa2 q = refcount pa q := by
          intro q hq
          simp only [refcount, hpg]
          exact getD_set_ne _ _ _ _ _ hq
        have hgdnone : (if s.slots.length ≤ s.cur_tokens / cfg.tokens_per_page then
              reserve_slots s.slots (s.cur_tokens / cfg.tokens_per_page + 1)
            else s.slots).getD (s.cur_tokens / cfg.tokens_per_page) none
            = none := by
          rcases hgd : (if s.slots.length ≤ s.cur_tokens / cfg.tokens_per_page then
              reserve_slots s.slots (s.cur_tokens / cfg.tokens_per_page + 1)
            else s.slots).getD (s.cur_tokens / cfg.tokens_per_page) none with _ | v
          · rfl
          · exact absurd (by rw [hgd]; rfl) hpop
        refine ⟨page_alloc_inv hinv halloc, hnp, [p],
          List.nodup_singleton p, ?_, ?_, ?_⟩
        · intro x hx
          have hxp : x = p := by simpa using hx
          subst hxp
          exact hpfacts
        · intro q
          by_cases hq : q = p
          · subst hq
            rw [href1, hpfacts.2, List.count_cons_self]
            rfl
          · rw [hrefne q hq, List.count_cons_of_ne hq]
            rfl
        · intro q
          rw [← hs1]
          show ((if s.slots.length ≤ s.cur_tokens / cfg.tokens_per_page then
                reserve_slots s.slots (s.cur_tokens / cfg.tokens_per_page + 1)
              else s.slots).set (s.cur_tokens / cfg.tokens_per_page)
                (some p)).count (some q)
              = s.slots.count (some q) + List.count q [p]
          rw [count_set_some_of_none _ _ _ _ hSLlen hgdnone, hSLcount q]
          by_cases hq : p = q
          · subst hq
            rw [if_pos rfl, List.count_cons_self]
            rfl
          · rw [if_neg hq,
              List.count_cons_of_ne (fun hc => hq hc.symm)]
            rfl

/-- `paged_append_token` preserves the accounting invariant and the
frame (configuration, groups, page count, sequence count; the sequence
list changes in at most the target position). -/
theorem paged_append_token_inv {impl impl1 : PagedKV} {id : Nat}
    (hinv : KVInv impl) (h : paged_append_token impl id = some impl1) :
    KVInv impl1 ∧ impl1.cfg = impl.cfg ∧ impl1.groups = impl.groups ∧
      impl1.alloc.num_pages = impl.alloc.num_pages ∧
      (∃ s1, impl1.seqs = impl.seqs.set id s1) := by
  rcases hid : impl.seqs[id]? with _ | s
  · unfold paged_append_token at h
    rw [hid] at h
    have h2 := Option.some.inj h
    subst h2
    refine ⟨hinv, rfl, rfl, rfl,
      ⟨{ slots := [], cur_tokens := 0, shared_prefix_tokens := 0 }, ?_⟩⟩
    have hge : impl.seqs.length ≤ id := by
      by_contra hc
      rw [List.getElem?_eq_getElem (by omega)] at hid
      exact absurd hid (by simp)
    rw [List.set_eq_of_length_le hge]
  · rw [paged_append_token_eq hid] at h
    rcases hstep : append_step impl.cfg impl.alloc s with _ | ⟨pa1, s1⟩
    · rw [hstep] at h
      exact absurd h (by simp)
    · rw [hstep] at h
      simp only [Option.map_some'] at h
      have h2 := Option.some.inj h
      obtain ⟨hpainv1, hnp, ap, hnd, hfresh, href, hcnt⟩ :=
        append_step_acc hinv.painv hstep
      have hsmem : s ∈ impl.seqs := List.getElem?_mem hid
      have halloc1 : impl1.alloc = pa1 := by rw [← h2]
      have hseqs1 : impl1.seqs = impl.seqs.set id s1 := by rw [← h2]
      have hgroups1 : impl1.groups = impl.groups := by rw [← h2]
      have hcfg1 : impl1.cfg = impl.cfg := by rw [← h2]
      have hslot1 : ∀ q, slot_count impl1 q = slot_count impl q + ap.count q := by
        intro q
        have hset := slots_count_set impl.seqs id s s1 q hid
        have h1 : slot_count impl1 q = slots_count (impl.seqs.set id s1) q := by
          rw [slot_count, hseqs1]
        have h2q := hcnt q
        have h3 : slot_count impl q = slots_count impl.seqs q := rfl
        omega
      have hgc1 : ∀ q, group_count impl1 q = group_count impl q := by
        intro q
        rw [group_count, hgroups1]
        rfl
      have hfresh_zero : ∀ q ∈ ap, slot_count impl q = 0 ∧ group_count impl q = 0 := by
        intro q hq
        have h1 := (hfresh q hq).2
        have h2q := hinv.acc q
        constructor <;> omega
      refine ⟨⟨by rw [halloc1]; exact hpainv1, ?_, ?_, ?_⟩,
        hcfg1, hgroups1, by rw [halloc1, hnp], ⟨s1, hseqs1⟩⟩
      · intro q
        have h1 : refcount impl1.alloc q = refcount impl.alloc q + ap.count q := by
          rw [halloc1]
          exact href q
        rw [h1, hslot1 q, hgc1 q, hinv.acc q]
        omega
      · intro q
        rw [hgc1 q]
        exact hinv.gone q
      · intro q hq
        rw [hgc1 q] at hq
        rw [hslot1 q]
        by_cases hmem : q ∈ ap
        · have h1 := (hfresh_zero q hmem).1
          have h2q : ap.count q = 1 := List.count_eq_one_of_mem hnd hmem
          omega
        · rw [List.count_eq_zero.mpr hmem]
          have := hinv.sone q hq
          omega

/-- `n` appends preserve the accounting invariant and the frame. -/
theorem appendN_inv :
    ∀ (n : Nat) (impl impl1 : PagedKV) (id : Nat),
      KVInv impl → appendN impl id n = some impl1 →
      KVInv impl1 ∧ impl1.cfg = impl.cfg ∧ impl1.groups = impl.groups ∧
        impl1.alloc.num_pages = impl.alloc.num_pages ∧
        (∃ s1, impl1.seqs = impl.seqs.set id s1) := by
  intro n
  induction n with
  | zero =>
      intro impl impl1 id hinv h
      have h2 := Option.some.inj h
      subst h2
      refine ⟨hinv, rfl, rfl, rfl, ?_⟩
      rcases hid : impl.seqs[id]? with _ | s
      · refine ⟨{ slots := [], cur_tokens := 0, shared_prefix_tokens := 0 }, ?_⟩
        have hge : impl.seqs.length ≤ id := by
          by_contra hc
          rw [List.getElem?_eq_getElem (by omega)] at hid
          exact absurd hid (by simp)
        rw [List.set_eq_of_length_le hge]
      · exact ⟨s, (set_getElem?_self hid).symm⟩
  | succ n ih =>
      intro impl impl1 id hinv h
      simp only [appendN] at h
      rcases hstep : paged_append_token impl id with _ | impl2
      · rw [hstep] at h
        exact absurd h (by simp)
      · rw [hstep] at h
        obtain ⟨hinv2, hcfg2, hgroups2, hnp2, s2, hseqs2⟩ :=
          paged_append_token_inv hinv hstep
        obtain ⟨hinv1, hcfg1, hgroups1, hnp1, s3, hseqs1⟩ :=
          ih impl2 impl1 id hinv2 h
        refine ⟨hinv1, by rw [hcfg1, hcfg2], by rw [hgroups1, hgroups2],
          by rw [hnp1, hnp2], ⟨s3, ?_⟩⟩
        rw [hseqs1, hseqs2, List.set_set]

/-- `paged_finish_sequence` preserves the accounting invariant and the
frame. -/
theorem paged_finish_sequence_inv {impl impl1 : PagedKV} {id : Nat}
    (hinv : KVInv impl) (h : paged_finish_sequence impl id = some impl1) :
    KVInv impl1 ∧ impl1.cfg = impl.cfg ∧ impl1.groups = impl.groups ∧
      impl1.alloc.num_pages = impl.alloc.num_pages := by
  rcases hid : impl.seqs[id]? with _ | s
  · unfold paged_finish_sequence at h
    rw [hid] at h
    have h2 := Option.some.inj h
    subst h2
    exact ⟨hinv, rfl, rfl, rfl⟩
  · obtain ⟨pa, hdec, hcfg1, hgroups1, halloc1, hseqs1⟩ :=
      paged_finish_sequence_elim hid h
    have hsmem : s ∈ impl.seqs := List.getElem?_mem hid
    have hcov : ∀ q, s.slots.count (some q) ≤ refcount impl.alloc q := by
      intro q
      have h1 := count_le_slots_count hsmem q
      have h2q := hinv.acc q
      have h3 : slot_count impl q = slots_count impl.seqs q := rfl
      omega
    obtain ⟨pa', hdec', hpainv', hnp', hpb', hlen', href'⟩ :=
      dec_slots_spec s.slots impl.alloc hinv.painv hcov
    have hpa : pa = pa' := by
      have := hdec.symm.trans hdec'
      exact Option.some.inj this
    subst hpa
    have hslot1 : ∀ q, slot_count impl1 q + s.slots.count (some q)
        = slot_count impl q := by
      intro q
      have hset := slots_count_set impl.seqs id s
        { slots := List.replicate s.slots.length none, cur_tokens := 0,
          shared_prefix_tokens := 0 } q hid
      have h1 : slot_count impl1 q = slots_count (impl.seqs.set id
          { slots := List.replicate s.slots.length none, cur_tokens := 0,
            shared_prefix_tokens := 0 }) q := by
        rw [slot_count, hseqs1]
      have h2q : ({ slots := List.replicate s.slots.length none, cur_tokens := 0, shared_prefix_tokens := 0 } : PagedSeqState).slots.count (some q) = 0 :=
        count_replicate_none _ _
      have h3 : slot_count impl q = slots_count impl.seqs q := rfl
      show slot_count impl1 q + List.count (some q) s.slots = slot_count impl q
      omega
    have hgc1 : ∀ q, group_count impl1 q = group_count impl q := by
      intro q
      rw [group_count, hgroups1]
      rfl
    refine ⟨⟨by rw [halloc1]; exact hpainv', ?_, ?_, ?_⟩,
      hcfg1, hgroups1, by rw [halloc1, hnp']⟩
    · intro q
      have h1 : refcount impl1.alloc q + s.slots.count (some q)
          = refcount impl.alloc q := by
        rw [halloc1]
        exact href' q
      have h2q := hinv.acc q
      have h3 := hslot1 q
      rw [hgc1 q]
      omega
    · intro q
      rw [hgc1 q]
      exact hinv.gone q
    · intro q hq
      rw [hgc1 q] at hq
      have h1 := hslot1 q
      have := hinv.sone q hq
      omega

/-! ## The init → appends → finish round trip (C8) -/

/-- One full lifecycle of one sequence: `init_sequence`, `n`
`append_token` calls on the returned id, then `finish_sequence`. -/
def runCycle (impl : PagedKV) (j : SequenceWork × Nat) : Option PagedKV :=
  match paged_init_sequence impl j.1 with
  | none => none
  | some (st1, id) =>
      match appendN st1 id j.2 with
      | none => none
      | some st2 => paged_finish_sequence st2 id

/-- The full init+appends+finish cycle over a whole workload, one
sequence after another. -/
def runCycles (impl : PagedKV) : List (SequenceWork × Nat) → Option PagedKV
  | [] => some impl
  | j :: rest =>
      match runCycle impl j with
      | none => none
      | some impl1 => runCycles impl1 rest

/-- A built member entry owning page `q` makes `groups_count`
positive. -/
theorem groups_count_pos_of_mem_entry {groups : List SharedPref}
    {g : SharedPref} (hg : g ∈ groups) (hb : g.built = true) {q : PageId}
    (hq : q ∈ g.pages) : 1 ≤ groups_count groups q := by
  have hval : (if g.built then g.pages.count q else 0)
      ∈ groups.map (fun x => if x.built then x.pages.count q else 0) :=
    List.mem_map_of_mem _ hg
  have hle := List.single_le_sum (fun (x : Nat) _ => Nat.zero_le x) _ hval
  rw [hb, if_pos rfl] at hle
  have hpos : 1 ≤ g.pages.count q := List.count_pos_iff.mpr hq
  exact le_trans hpos (by simpa [groups_count] using hle)

/-- Group-table ownership summed over the whole page range is the
total page count of the built entries. -/
theorem sum_groups_count_range :
    ∀ (groups : List SharedPref) (np : Nat),
      (∀ g ∈ groups, g.built = true → ∀ p ∈ g.pages, p < np) →
      ((List.range np).map (fun q => groups_count groups q)).sum
        = (groups.map (fun g => if g.built then g.pages.length else 0)).sum := by
  intro groups
  induction groups with
  | nil =>
      intro np _
      simp [groups_count]
  | cons g t ih =>
      intro np h
      have hsplit : ((List.range np).map (fun q => groups_count (g :: t) q)).sum
          = ((List.range np).map (fun q =>
              (if g.built then g.pages.count q else 0)
                + groups_count t q)).sum := rfl
      rw [hsplit, sum_map_add]
      have ht := ih np (fun x hx => h x (List.mem_cons_of_mem g hx))
      rw [ht]
      have hhead : ((List.range np).map (fun q =>
          if g.built then g.pages.count q else 0)).sum
          = (if g.built then g.pages.length else 0) := by
        rcases hb : g.built with _ | _
        · simp
        · have hv := h g (List.mem_cons_self g t) hb
          rw [if_pos rfl]
          have hmap : ((List.range np).map (fun q =>
              if true = true then g.pages.count q else 0))
              = ((List.range np).map (fun q => g.pages.count q)) := by
            apply List.map_congr_left
            intro q _
            rw [if_pos rfl]
          rw [hmap]
          exact sum_count_range g.pages np hv
      rw [hhead]
      rfl

/-- Accounting for one full `init → n × append → finish` cycle: the
invariant is preserved, the sequence's slots are all released, the
group table gains exactly the pages of the freshly built entry (if
any), and `pages_in_use` returns to its pre-init value plus the page
count of the entry this init built. -/
theorem cycle_core {impl st1 st2 st3 : PagedKV} {w : SequenceWork} {id n : Nat}
    (hinv : KVInv impl)
    (hinit : paged_init_sequence impl w = some (st1, id))
    (happ : appendN st1 id n = some st2)
    (hfin : paged_finish_sequence st2 id = some st3) :
    KVInv st3 ∧ st3.cfg = impl.cfg ∧
    st3.alloc.num_pages = impl.alloc.num_pages ∧
    (∀ q, slot_count st3 q = slot_count impl q) ∧
    page_allocator_pages_in_use st3.alloc
      = page_allocator_pages_in_use impl.alloc
        + (if init_builds_group impl w then
            ceil_div (declared_shared_tokens impl w) impl.cfg.tokens_per_page
          else 0) := by
  obtain ⟨hinv1, hcfg1, hid, ⟨snew, hseqs1⟩, hnp1, bp, hnd, hlen_t, hlen_f,
      hfresh, hgc1⟩ := paged_init_sequence_acc hinv hinit
  obtain ⟨hinv2, hcfg2, hgroups2, hnp2, s2, hseqs2⟩ :=
    appendN_inv n st1 st2 id hinv1 happ
  have hidlt : id < st1.seqs.length := by
    rw [hseqs1, List.length_append, hid]
    simp
  have hid2 : st2.seqs[id]? = some s2 := by
    rw [hseqs2]
    exact List.getElem?_set_eq_of_lt s2 hidlt
  obtain ⟨hinv3, hcfg3, hgroups3, hnp3⟩ := paged_finish_sequence_inv hinv2 hfin
  obtain ⟨pa, hdec, -, -, halloc3, hseqs3⟩ := paged_finish_sequence_elim hid2 hfin
  have hslot3 : ∀ q, slot_count st3 q = slot_count impl q := by
    intro q
    have hs3 : st3.seqs = impl.seqs ++
        [{ slots := List.replicate s2.slots.length none, cur_tokens := 0, shared_prefix_tokens := 0 }] := by
      rw [hseqs3, hseqs2, hseqs1, List.set_set, hid, set_concat_length]
    rw [slot_count, hs3, slots_count_append]
    have hz : ({ slots := List.replicate s2.slots.length none, cur_tokens := 0, shared_prefix_tokens := 0 } : PagedSeqState).slots.count (some q) = 0 :=
      count_replicate_none _ _
    rw [hz]
    rfl
  have hgc3 : ∀ q, group_count st3 q = group_count impl q + bp.count q := by
    intro q
    rw [group_count, hgroups3, hgroups2, ← group_count, hgc1 q]
  have href3 : ∀ q, refcount st3.alloc q
      = refcount impl.alloc q + bp.count q := by
    intro q
    rw [hinv3.acc q, hslot3 q, hgc3 q, hinv.acc q]
    omega
  have hnp30 : st3.alloc.num_pages = impl.alloc.num_pages := by
    rw [hnp3, hnp2, hnp1]
  refine ⟨hinv3, by rw [hcfg3, hcfg2, hcfg1], hnp30, hslot3, ?_⟩
  have hstep1 : page_allocator_pages_in_use st3.alloc
      = (List.range impl.alloc.num_pages).countP
          (fun i => decide (0 < refcount st3.alloc i)) := by
    rw [page_allocator_pages_in_use, hnp30]
  have hstep2 : (List.range impl.alloc.num_pages).countP
        (fun i => decide (0 < refcount st3.alloc i))
      = (List.range impl.alloc.num_pages).countP
          (fun i => decide (0 < refcount impl.alloc i + bp.count i)) := by
    apply countP_congr_list
    intro a _
    rw [href3 a]
  have hstep3 : (List.range impl.alloc.num_pages).countP
        (fun i => decide (0 < refcount impl.alloc i + bp.count i))
      = (List.range impl.alloc.num_pages).countP
          (fun i => decide (0 < refcount impl.alloc i))
        + (List.range impl.alloc.num_pages).countP
          (fun i => decide (refcount impl.alloc i = 0 ∧ 0 < bp.count i)) :=
    countP_split_fresh _ _ _
  have hstep4 : (List.range impl.alloc.num_pages).countP
        (fun i => decide (refcount impl.alloc i = 0 ∧ 0 < bp.count i))
      = (List.range impl.alloc.num_pages).countP
          (fun i => decide (i ∈ bp)) := by
    apply countP_congr_list
    intro a _
    rw [decide_eq_decide]
    constructor
    · intro hc
      exact List.count_pos_iff.mp hc.2
    · intro hm
      refine ⟨(hfresh a hm).2, ?_⟩
      rw [List.count_eq_one_of_mem hnd hm]
      omega
  have hstep5 : (List.range impl.alloc.num_pages).countP
        (fun i => decide (i ∈ bp)) = bp.length :=
    countP_mem_eq_length hnd (fun p hp => (hfresh p hp).1)
  have hlen_if : bp.length = (if init_builds_group impl w then
      ceil_div (declared_shared_tokens impl w) impl.cfg.tokens_per_page
    else 0) := by
    rcases hibg : init_builds_group impl w with _ | _
    · rw [hlen_f hibg]
      rfl
    · rw [hlen_t hibg, if_pos rfl]
  rw [hstep1, hstep2, hstep3, hstep4, hstep5, hlen_if]
  rfl

/-- Every state reachable from `create` by init/append/finish calls
satisfies the accounting invariant. -/
theorem runKVOps_kvinv :
    ∀ (ops : List KVOp) (impl impl1 : PagedKV),
      KVInv impl → runKVOps impl ops = some impl1 → KVInv impl1 := by
  intro ops
  induction ops with
  | nil =>
      intro impl impl1 hinv h
      have h2 := Option.some.inj h
      subst h2
      exact hinv
  | cons op rest ih =>
      intro impl impl1 hinv h
      simp only [runKVOps] at h
      rcases hop : runKVOp impl op with _ | impl2
      · rw [hop] at h
        exact absurd h (by simp)
      · rw [hop] at h
        refine ih impl2 impl1 ?_ h
        rcases op with w | aid | fid
        · simp only [runKVOp] at hop
          rcases hinit : paged_init_sequence impl w with _ | ⟨st1, id⟩
          · rw [hinit] at hop
            exact absurd hop (by simp)
          · rw [hinit] at hop
            simp only [Option.map_some'] at hop
            have h2 := Option.some.inj hop
            have h3 : st1 = impl2 := h2
            exact h3 ▸ (paged_init_sequence_acc hinv hinit).1
        · exact (paged_append_token_inv hinv hop).1
        · exact (paged_finish_sequence_inv hinv hop).1

/-- A full run of init+appends+finish cycles keeps the invariant and
leaves no sequence-slot references behind. -/
theorem runCycles_cleared :
    ∀ (jobs : List (SequenceWork × Nat)) (impl st : PagedKV),
      KVInv impl → (∀ q, slot_count impl q = 0) →
      runCycles impl jobs = some st →
      KVInv st ∧ (∀ q, slot_count st q = 0) := by
  intro jobs
  induction jobs with
  | nil =>
      intro impl st hinv hcl h
      have h2 := Option.some.inj h
      subst h2
      exact ⟨hinv, hcl⟩
  | cons j rest ih =>
      intro impl st hinv hcl h
      simp only [runCycles] at h
      rcases hc : runCycle impl j with _ | impl1
      · rw [hc] at h
        exact absurd h (by simp)
      · rw [hc] at h
        have hrest : runCycles impl1 rest = some st := h
        unfold runCycle at hc
        rcases hinit : paged_init_sequence impl j.1 with _ | ⟨st1, id⟩
        · rw [hinit] at hc
          exact absurd hc (by simp)
        · rw [hinit] at hc
          have hc2 : (match appendN st1 id j.2 with
              | none => none
              | some st2 => paged_finish_sequence st2 id) = some impl1 := hc
          rcases happ : appendN st1 id j.2 with _ | st2
          · rw [happ] at hc2
            exact absurd hc2 (by simp)
          · rw [happ] at hc2
            obtain ⟨hinv3, -, -, hslot3, -⟩ := cycle_core hinv hinit happ hc2
            refine ih impl1 st hinv3 ?_ hrest
            intro q
            rw [hslot3 q, hcl q]

/-- In an invariant state with no slot references, the pages in use are
exactly the built group entries' pages. -/
theorem pages_in_use_of_cleared {st : PagedKV}
    (hinv : KVInv st) (hcl : ∀ q, slot_count st q = 0) :
    page_allocator_pages_in_use st.alloc
      = (st.groups.map (fun g => if g.built then g.pages.length else 0)).sum := by
  have href : ∀ q, refcount st.alloc q = group_count st q := by
    intro q
    rw [hinv.acc q, hcl q]
    omega
  have hvalid : ∀ g ∈ st.groups, g.built = true →
      ∀ p ∈ g.pages, p < st.alloc.num_pages := by
    intro g hg hb p hp
    have h1 := groups_count_pos_of_mem_entry hg hb hp
    have h2 : refcount st.alloc p ≠ 0 := by
      rw [href p]
      show groups_count st.groups p ≠ 0
      omega
    have h3 : p < st.alloc.pages.length := by
      apply lt_length_of_getD_ne st.alloc.pages p 0
      exact h2
    rw [← hinv.painv.len_eq]
    exact h3
  have hstep1 : page_allocator_pages_in_use st.alloc
      = (List.range st.alloc.num_pages).countP
          (fun i => decide (0 < group_count st i)) := by
    rw [page_allocator_pages_in_use]
    apply countP_congr_list
    intro a _
    rw [href a]
  have hstep2 : (List.range st.alloc.num_pages).countP
        (fun i => decide (0 < group_count st i))
      = ((List.range st.alloc.num_pages).map (fun q => group_count st q)).sum :=
    countP_pos_eq_sum_of_le_one _ _ (fun p _ => hinv.gone p)
  have hstep3 : ((List.range st.alloc.num_pages).map
        (fun q => group_count st q)).sum
      = (st.groups.map (fun g => if g.built then g.pages.length else 0)).sum :=
    sum_groups_count_range st.groups st.alloc.num_pages hvalid
  rw [hstep1, hstep2, hstep3]

/-- **C8** (confirmed).  Round-trip accounting on the paged backend:
for any reachable state, running `init_sequence`, then any number of
`append_token` calls on that sequence, then `finish_sequence`, leaves
`pages_in_use` at its pre-init value plus the group's shared-prefix
page count if this init was the one that built (initialized) the
group's entry; and a full init+appends+finish cycle over all sequences
of a workload, starting from `create`, leaves `pages_in_use` equal to
the sum of the initialized (built) groups' prefix-page counts. -/
theorem C8_round_trip (cfg : SimConfig) :
    (∀ (ops : List KVOp) (impl st1 st2 st3 : PagedKV) (w : SequenceWork)
        (id n : Nat),
        runKVOps (create_paged_backend cfg) ops = some impl →
        paged_init_sequence impl w = some (st1, id) →
        appendN st1 id n = some st2 →
        paged_finish_sequence st2 id = some st3 →
        page_allocator_pages_in_use st3.alloc
          = page_allocator_pages_in_use impl.alloc
            + (if init_builds_group impl w then
                ceil_div (declared_shared_tokens impl w)
                  impl.cfg.tokens_per_page
              else 0)) ∧
    (∀ (jobs : List (SequenceWork × Nat)) (st : PagedKV),
        runCycles (create_paged_backend cfg) jobs = some st →
        page_allocator_pages_in_use st.alloc
          = (st.groups.map
              (fun g => if g.built then g.pages.length else 0)).sum) := by
  constructor
  · intro ops impl st1 st2 st3 w id n hops hinit happ hfin
    have hinv : KVInv impl :=
      runKVOps_kvinv ops (create_paged_backend cfg) impl (KVInv_create cfg) hops
    exact (cycle_core hinv hinit happ hfin).2.2.2.2
  · intro jobs st hrun
    have hcl0 : ∀ q, slot_count (create_paged_backend cfg) q = 0 := by
      intro q
      rfl
    obtain ⟨hinv, hcl⟩ := runCycles_cleared jobs (create_paged_backend cfg) st
      (KVInv_create cfg) hcl0 hrun
    exact pages_in_use_of_cleared hinv hcl

def cfgW8 : SimConfig :=
  { num_layers := 1, num_heads := 1, head_dim := 1, max_context_tokens := 4,
    tokens_per_page := 2, arena_bytes := 32, num_sequences := 4, num_groups := 1,
    max_prompt_extra := 0, min_gen_tokens := 0, max_gen_tokens := 0 }

def workW8 : SequenceWork :=
  { prompt_tokens := 2, gen_tokens := 1, shared_prompt_tokens := 2,
    shared_prompt_id := 0 }

def st1W8 : PagedKV :=
  { cfg := cfgW8
    alloc := { page_bytes := 8, num_pages := 4, pages := [0, 0, 0, 2], free_list := [2, 1, 0] }
    seqs := [{ slots := [some 3, none, none, none], cur_tokens := 0, shared_prefix_tokens := 2 }]
    groups := [{ pages := [3], pref_tokens := 2, built := true }] }

def st2W8 : PagedKV :=
  { cfg := cfgW8
    alloc := { page_bytes := 8, num_pages := 4, pages := [0, 0, 0, 2], free_list := [2, 1, 0] }
    seqs := [{ slots := [some 3, none, none, none], cur_tokens := 1, shared_prefix_tokens := 2 }]
    groups := [{ pages := [3], pref_tokens := 2, built := true }] }

def st3W8 : PagedKV :=
  { cfg := cfgW8
    alloc := { page_bytes := 8, num_pages := 4, pages := [0, 0, 0, 1], free_list := [2, 1, 0] }
    seqs := [{ slots := [none, none, none, none], cur_tokens := 0, shared_prefix_tokens := 0 }]
    groups := [{ pages := [3], pref_tokens := 2, built := true }] }

theorem C8_round_trip_witness :
    runKVOps (create_paged_backend cfgW8) []
        = some (create_paged_backend cfgW8) ∧
    paged_init_sequence (create_paged_backend cfgW8) workW8
        = some (st1W8, 0) ∧
    appendN st1W8 0 1 = some st2W8 ∧
    paged_finish_sequence st2W8 0 = some st3W8 ∧
    page_allocator_pages_in_use st3W8.alloc
      = page_allocator_pages_in_use (create_paged_backend cfgW8).alloc
        + (if init_builds_group (create_paged_backend cfgW8) workW8 then
            ceil_div (declared_shared_tokens (create_paged_backend cfgW8) workW8)
              (create_paged_backend cfgW8).cfg.tokens_per_page
          else 0) ∧
    runCycles (create_paged_backend cfgW8) [(workW8, 1)] = some st3W8 ∧
    page_allocator_pages_in_use st3W8.alloc
      = (st3W8.groups.map
          (fun g => if g.built then g.pages.length else 0)).sum := by
  have h0 : runKVOps (create_paged_backend cfgW8) []
      = some (create_paged_backend cfgW8) := rfl
  have h1 : paged_init_sequence (create_paged_backend cfgW8) workW8
      = some (st1W8, 0) := by decide
  have h2 : appendN st1W8 0 1 = some st2W8 := by decide
  have h3 : paged_finish_sequence st2W8 0 = some st3W8 := by decide
  have h4 : runCycles (create_paged_backend cfgW8) [(workW8, 1)]
      = some st3W8 := by decide
  exact ⟨h0, h1, h2, h3,
    (C8_round_trip cfgW8).1 [] (create_paged_backend cfgW8) st1W8 st2W8 st3W8
      workW8 0 1 h0 h1 h2 h3,
    h4, (C8_round_trip cfgW8).2 [(workW8, 1)] st3W8 h4⟩

/-! ## No-sharing accounting (C9) -/

/-- One sequence's lifetime in the C9 scenario: `init_sequence`
followed by `j.2` `append_token` calls on the returned id (no
finish). -/
def runJob (impl : PagedKV) (j : SequenceWork × Nat) : Option PagedKV :=
  match paged_init_sequence impl j.1 with
  | none => none
  | some (st1, id) => appendN st1 id j.2

/-- The sequential execution of C9: each sequence is initialized and
then receives its appends, one sequence after another. -/
def runJobs (impl : PagedKV) : List (SequenceWork × Nat) → Option PagedKV
  | [] => some impl
  | j :: rest =>
      match runJob impl j with
      | none => none
      | some impl1 => runJobs impl1 rest

/-- With an empty group table the init body never touches the
allocator or the group table: the fresh sequence starts with no slots
and no shared prefix. -/
theorem paged_init_core_no_groups {impl : PagedKV} {w : SequenceWork}
    (h : impl.groups = []) :
    paged_init_core impl w
      = some (impl.alloc, impl.groups,
          { slots := [], cur_tokens := 0, shared_prefix_tokens := 0 }) := by
  have hcond : ¬ (0 < declared_shared_tokens impl w ∧ 0 < impl.groups.length) := by
    rw [h]
    simp
  simp only [paged_init_core]
  rw [if_neg hcond]

theorem paged_init_sequence_no_groups {impl : PagedKV} {w : SequenceWork}
    (h : impl.groups = []) :
    paged_init_sequence impl w
      = some ({ impl with seqs := impl.seqs ++ [{ slots := [], cur_tokens := 0, shared_prefix_tokens := 0 }] },
          impl.seqs.length) := by
  unfold paged_init_sequence
  rw [paged_init_core_no_groups h]

/-- Sum of per-page slot references over the whole page range equals
the total number of populated slots. -/
theorem sum_slots_count_range :
    ∀ (seqs : List PagedSeqState) (np : Nat),
      (∀ s ∈ seqs, ∀ p, (some p) ∈ s.slots → p < np) →
      ((List.range np).map (fun q => slots_count seqs q)).sum
        = (seqs.map (fun s => s.slots.countP (fun o => o.isSome))).sum := by
  intro seqs
  induction seqs with
  | nil =>
      intro np _
      simp [slots_count]
  | cons s t ih =>
      intro np h
      have hsplit : ((List.range np).map (fun q => slots_count (s :: t) q)).sum
          = ((List.range np).map (fun q =>
              s.slots.count (some q) + slots_count t q)).sum := rfl
      rw [hsplit, sum_map_add,
        sum_count_some_range s.slots np (h s (List.mem_cons_self s t)),
        ih np (fun x hx => h x (List.mem_cons_of_mem s hx))]
      rfl

/-- Main induction for C9: starting from an invariant no-groups state,
the sequential init+appends schedule (all append counts within the
context limit) succeeds into a state where sequence `k` of this run
holds exactly `n_k` tokens in exactly `ceil(n_k / tokens_per_page)`
populated slots, earlier sequences untouched. -/
theorem runJobs_no_groups {cfg : SimConfig} (htpp : 0 < cfg.tokens_per_page) :
    ∀ (jobs : List (SequenceWork × Nat)) (st0 st : PagedKV),
      KVInv st0 → st0.cfg = cfg → st0.groups = [] →
      (∀ j ∈ jobs, j.2 ≤ cfg.max_context_tokens) →
      runJobs st0 jobs = some st →
      KVInv st ∧ st.cfg = cfg ∧ st.groups = [] ∧
      st.seqs.length = st0.seqs.length + jobs.length ∧
      (∀ i, i < st0.seqs.length → st.seqs[i]? = st0.seqs[i]?) ∧
      (∀ (k : Nat) (j : SequenceWork × Nat), jobs[k]? = some j →
        ∀ s, st.seqs[st0.seqs.length + k]? = some s →
          s.cur_tokens = j.2 ∧
          populated_count s = ceil_div j.2 cfg.tokens_per_page) := by
  intro jobs
  induction jobs with
  | nil =>
      intro st0 st hinv hcfg hgr _ h
      have h2 := Option.some.inj h
      subst h2
      exact ⟨hinv, hcfg, hgr, by simp, fun i _ => rfl,
        fun k j hj => absurd hj (by simp)⟩
  | cons j rest ih =>
      intro st0 st hinv hcfg hgr hn h
      simp only [runJobs] at h
      rcases hjob : runJob st0 j with _ | impl1
      · rw [hjob] at h
        exact absurd h (by simp)
      · rw [hjob] at h
        have hrest : runJobs impl1 rest = some st := h
        unfold runJob at hjob
        rw [paged_init_sequence_no_groups hgr] at hjob
        have happ : appendN
            { st0 with seqs := st0.seqs ++ [{ slots := [], cur_tokens := 0, shared_prefix_tokens := 0 }] }
            st0.seqs.length j.2 = some impl1 := hjob
        have hinit : paged_init_sequence st0 j.1
            = some ({ st0 with seqs := st0.seqs ++ [{ slots := [], cur_tokens := 0, shared_prefix_tokens := 0 }] },
                st0.seqs.length) := paged_init_sequence_no_groups hgr
        have hinv1 : KVInv { st0 with seqs := st0.seqs ++ [{ slots := [], cur_tokens := 0, shared_prefix_tokens := 0 }] } :=
          (paged_init_sequence_acc hinv hinit).1
        have hid1 : ({ st0 with seqs := st0.seqs ++ [{ slots := [], cur_tokens := 0, shared_prefix_tokens := 0 }] }
            : PagedKV).seqs[st0.seqs.length]?
            = some { slots := [], cur_tokens := 0, shared_prefix_tokens := 0 } := by
          show (st0.seqs ++ [{ slots := [], cur_tokens := 0, shared_prefix_tokens := 0 }])[st0.seqs.length]?
            = _
          exact List.getElem?_concat_length _ _
        rw [appendN_eq_stepN j.2 hid1] at happ
        rcases hstep : stepN cfg j.2 st0.alloc
            { slots := [], cur_tokens := 0, shared_prefix_tokens := 0 }
          with _ | ⟨pa2, s2⟩
        · have hstep' : stepN ({ st0 with seqs := st0.seqs ++ [{ slots := [], cur_tokens := 0, shared_prefix_tokens := 0 }] } : PagedKV).cfg j.2
              ({ st0 with seqs := st0.seqs ++ [{ slots := [], cur_tokens := 0, shared_prefix_tokens := 0 }] } : PagedKV).alloc
              { slots := [], cur_tokens := 0, shared_prefix_tokens := 0 } = none := by
            show stepN st0.cfg j.2 st0.alloc _ = none
            rw [hcfg]
            exact hstep
          rw [hstep'] at happ
          exact absurd happ (by simp)
        · have hstep' : stepN ({ st0 with seqs := st0.seqs ++ [{ slots := [], cur_tokens := 0, shared_prefix_tokens := 0 }] } : PagedKV).cfg j.2
              ({ st0 with seqs := st0.seqs ++ [{ slots := [], cur_tokens := 0, shared_prefix_tokens := 0 }] } : PagedKV).alloc
              { slots := [], cur_tokens := 0, shared_prefix_tokens := 0 }
              = some (pa2, s2) := by
            show stepN st0.cfg j.2 st0.alloc _ = some (pa2, s2)
            rw [hcfg]
            exact hstep
          rw [hstep'] at happ
          simp only [Option.map_some'] at happ
          have himpl1 := Option.some.inj happ
          have hshape0 : SeqShape cfg 0
              { slots := [], cur_tokens := 0, shared_prefix_tokens := 0 } := by
            refine ⟨rfl, ?_⟩
            intro i
            constructor
            · intro hc
              exact absurd hc (by simp)
            · intro hc
              rw [ceil_div_zero_left] at hc
              omega
          have hjmax : j.2 ≤ cfg.max_context_tokens :=
            hn j (List.mem_cons_self j rest)
          have hshape := stepN_shape htpp j.2 st0.alloc _ 0 pa2 s2 hshape0
            (by omega) hstep
          rw [Nat.zero_add, Nat.min_eq_left hjmax] at hshape
          have hcur2 : s2.cur_tokens = j.2 := hshape.1
          have hpop2 : populated_count s2 = ceil_div j.2 cfg.tokens_per_page :=
            countP_isSome_of_pattern s2.slots _ hshape.2
          have hseqs1 : impl1.seqs = st0.seqs ++ [s2] := by
            rw [← himpl1]
            show (st0.seqs ++ [({ slots := [], cur_tokens := 0, shared_prefix_tokens := 0 } : PagedSeqState)]).set st0.seqs.length s2 = _
            exact set_concat_length _ _ _
          have hinvi : KVInv impl1 := by
            refine (appendN_inv j.2 _ impl1 st0.seqs.length hinv1 ?_).1
            rw [appendN_eq_stepN j.2 hid1, hstep']
            simp only [Option.map_some']
            exact happ
          have hcfgi : impl1.cfg = cfg := by
            rw [← himpl1]
            exact hcfg
          have hgri : impl1.groups = [] := by
            rw [← himpl1]
            exact hgr
          have hleni : impl1.seqs.length = st0.seqs.length + 1 := by
            rw [hseqs1, List.length_append]
            rfl
          obtain ⟨hinvf, hcfgf, hgrf, hlenf, hpresf, hjobf⟩ :=
            ih impl1 st hinvi hcfgi hgri
              (fun x hx => hn x (List.mem_cons_of_mem j hx)) hrest
          refine ⟨hinvf, hcfgf, hgrf, ?_, ?_, ?_⟩
          · rw [hlenf, hleni, List.length_cons]
            omega
          · intro i hi
            have h1 := hpresf i (by omega)
            rw [h1, hseqs1]
            have h2 : i < st0.seqs.length := hi
            rw [List.getElem?_append, if_pos h2]
          · intro k jk hjk s hs
            rcases k with _ | k2
            · have hjeq : j = jk := by simpa using hjk
              subst hjeq
              have h1 := hpresf st0.seqs.length (by omega)
              rw [Nat.add_zero] at hs
              rw [h1, hseqs1, List.getElem?_concat_length] at hs
              have hseq := Option.some.inj hs
              rw [← hseq]
              exact ⟨hcur2, hpop2⟩
            · have hjk2 : rest[k2]? = some jk := by simpa using hjk
              have hidx : st0.seqs.length + (k2 + 1) = impl1.seqs.length + k2 := by
                omega
              rw [hidx] at hs
              exact hjobf k2 jk hjk2 s hs

/-- **C9** (confirmed).  No-sharing accounting: with `num_groups = 0`,
a sequential execution that initializes each sequence and then gives
sequence `i` its `n_i ≤ max_context_tokens` appends (no finish calls),
and in which no allocation fails (the run returns a state), ends with
`stats` reporting
`physical_bytes = (Σ_i ceil(n_i / tokens_per_page)) × page_bytes`. -/
theorem C9_no_sharing_accounting (cfg : SimConfig)
    (jobs : List (SequenceWork × Nat)) (st : PagedKV)
    (htpp : 0 < cfg.tokens_per_page) (hg : cfg.num_groups = 0)
    (hn : ∀ j ∈ jobs, j.2 ≤ cfg.max_context_tokens)
    (hrun : runJobs (create_paged_backend cfg) jobs = some st) :
    (paged_stats st).physical_bytes
      = (jobs.map (fun j => ceil_div j.2 cfg.tokens_per_page)).sum
        * page_allocator_page_bytes st.alloc := by
  have hgr0 : (create_paged_backend cfg).groups = [] := by
    show List.replicate cfg.num_groups default = []
    rw [hg]
    rfl
  obtain ⟨hinv, hcfgst, hgrst, hlen, -, hjob⟩ :=
    runJobs_no_groups htpp jobs (create_paged_backend cfg) st
      (KVInv_create cfg) rfl hgr0 hn hrun
  have hphys : (paged_stats st).physical_bytes
      = page_allocator_pages_in_use st.alloc
        * page_allocator_page_bytes st.alloc := rfl
  rw [hphys]
  have hgc0 : ∀ q, group_count st q = 0 := by
    intro q
    rw [group_count, hgrst]
    rfl
  have href : ∀ q, refcount st.alloc q = slot_count st q := by
    intro q
    rw [hinv.acc q, hgc0 q]
    omega
  have hs1 : ∀ q, slot_count st q ≤ 1 := fun q => hinv.sone q (hgc0 q)
  have hvalid : ∀ s ∈ st.seqs, ∀ p, (some p) ∈ s.slots →
      p < st.alloc.num_pages := by
    intro s hs p hp
    have h1 : 1 ≤ s.slots.count (some p) := List.count_pos_iff.mpr hp
    have h2 := count_le_slots_count hs p
    have h3 : slot_count st p = slots_count st.seqs p := rfl
    have h4 : refcount st.alloc p ≠ 0 := by
      rw [href p]
      omega
    have h5 : p < st.alloc.pages.length :=
      lt_length_of_getD_ne st.alloc.pages p 0 h4
    rw [← hinv.painv.len_eq]
    exact h5
  have hstep1 : page_allocator_pages_in_use st.alloc
      = (List.range st.alloc.num_pages).countP
          (fun i => decide (0 < slot_count st i)) := by
    rw [page_allocator_pages_in_use]
    apply countP_congr_list
    intro a _
    rw [href a]
  have hstep2 : (List.range st.alloc.num_pages).countP
        (fun i => decide (0 < slot_count st i))
      = ((List.range st.alloc.num_pages).map (fun q => slot_count st q)).sum :=
    countP_pos_eq_sum_of_le_one _ _ (fun p _ => hs1 p)
  have hstep3 : ((List.range st.alloc.num_pages).map
        (fun q => slot_count st q)).sum
      = (st.seqs.map (fun s => s.slots.countP (fun o => o.isSome))).sum :=
    sum_slots_count_range st.seqs st.alloc.num_pages hvalid
  have hstep4 : (st.seqs.map (fun s => s.slots.countP (fun o => o.isSome))).sum
      = (jobs.map (fun j => ceil_div j.2 cfg.tokens_per_page)).sum := by
    apply map_sum_eq_of_corresponding st.seqs jobs _ _
    · rw [hlen]
      show List.length ([] : List PagedSeqState) + jobs.length = jobs.length
      simp
    · intro k a b ha hb
      have hidx : (create_paged_backend cfg).seqs.length + k = k := by
        show List.length ([] : List PagedSeqState) + k = k
        simp
      have hs2 : st.seqs[(create_paged_backend cfg).seqs.length + k]?
          = some a := by
        rw [hidx]
        exact ha
      have hres := hjob k b hb a hs2
      show populated_count a = ceil_div b.2 cfg.tokens_per_page
      exact hres.2
  rw [hstep1, hstep2, hstep3, hstep4]

def cfgW9 : SimConfig :=
  { num_layers := 1, num_heads := 1, head_dim := 1, max_context_tokens := 4,
    tokens_per_page := 2, arena_bytes := 32, num_sequences := 4, num_groups := 0,
    max_prompt_extra := 0, min_gen_tokens := 0, max_gen_tokens := 0 }

def workW9 : SequenceWork :=
  { prompt_tokens := 3, gen_tokens := 0, shared_prompt_tokens := 0,
    shared_prompt_id := -1 }

def jobsW9 : List (SequenceWork × Nat) :=
  [(workW9, 3), (workW9, 2)]

def stW9 : PagedKV :=
  { cfg := cfgW9
    alloc := { page_bytes := 8, num_pages := 4, pages := [0, 1, 1, 1], free_list := [0] }
    seqs := [{ slots := [some 3, some 2, none, none], cur_tokens := 3, shared_prefix_tokens := 0 },
             { slots := [some 1, none, none, none], cur_tokens := 2, shared_prefix_tokens := 0 }]
    groups := [] }

theorem C9_no_sharing_accounting_witness :
    0 < cfgW9.tokens_per_page ∧ cfgW9.num_groups = 0 ∧
    (∀ j ∈ jobsW9, j.2 ≤ cfgW9.max_context_tokens) ∧
    runJobs (create_paged_backend cfgW9) jobsW9 = some stW9 ∧
    (paged_stats stW9).physical_bytes
      = (jobsW9.map (fun j => ceil_div j.2 cfgW9.tokens_per_page)).sum
        * page_allocator_page_bytes stW9.alloc := by
  have hrun : runJobs (create_paged_backend cfgW9) jobsW9 = some stW9 := by
    decide
  exact ⟨by decide, rfl, by decide, hrun,
    C9_no_sharing_accounting cfgW9 jobsW9 stW9 (by decide) rfl (by decide) hrun⟩

end KVSim
